import Mathlib

/-
Verification of the layered-graph minimum path cost solver (`min_path_cost`
in `src/lib.rs`).

Modelling choices (shallow embedding of the Rust source):

* The Rust graph is a collection of `Rc<RefCell<Node>>` shared mutable nodes.
  We model it as an arena: a `Store` is a `List Node` and a node pointer is
  its index (`Nat`).  Pointer equality of `Rc`s is index equality.  `Edge`
  stores its `usize` weight and a destination index; `Node` stores its edge
  list and the `maybe_min_path : Option Nat` field.  Mutating a `RefCell`
  becomes `List.set` on the store.

* `usize` arithmetic: weights are `Nat`.  The addition
  `edge.weight + src_min_path` is wrapping in a release build, so the model
  computes `(e.weight + m) % U` with `U = 2 ^ 64`; `usize::MAX` is
  `U - 1`.

* Panics: while a node is held under `borrow_mut`, the solver calls
  `edge.destination.borrow()`.  If the destination is the very cell being
  borrowed (a malformed self-edge), the `RefCell` panics at run time.
  This is the only aliasing panic the sweep can hit, and the model makes it
  explicit: the solver returns `Except Unit _`, and `.error ()` is the
  panic.  All other fallible-looking spots (`input.len() - 1` on an empty
  input under wrapping arithmetic) complete normally.

* The Rust code takes `let node = node.borrow_mut()` once per node and reads
  `node.maybe_min_path` through that guard, so the field cannot change while
  the node's edges are iterated; the model mirrors that by reading the node
  from the store exactly once per visit (`getNode s i` bound at the start of
  `processNode`).
-/

namespace MinPath

/-- Size of the `usize` value space (64-bit platform). -/
def U : Nat := 2 ^ 64

/-- The value `usize::MAX`. -/
def usizeMAX : Nat := U - 1

/-- Unidirectional, weighted edge to a node (`struct Edge` in the source);
the destination `Rc` pointer is an arena index. -/
structure Edge where
  weight : Nat
  destination : Nat
deriving DecidableEq, Repr

/-- Node for the min path cost problem (`struct Node` in the source). -/
structure Node where
  edges : List Edge
  maybe_min_path : Option Nat
deriving DecidableEq, Repr

/-- The arena of nodes: index `i` plays the role of the `i`-th `Rc` cell. -/
abbrev Store := List Node

/-- The input type: a list of rows, each row a list of node indices. -/
abbrev Input := List (List Nat)

/-- Dereference a node pointer.  Out-of-range indices (which have no Rust
counterpart, since every `Rc` is valid) give an inert default node. -/
def getNode (s : Store) (i : Nat) : Node := s.getD i ⟨[], none⟩

/-- Write `maybe_min_path` of node `i` (the effect of
`edge.destination.borrow_mut().maybe_min_path = Some (..)`). -/
def setMinPath (s : Store) (i : Nat) (v : Nat) : Store :=
  s.set i ⟨(getNode s i).edges, some v⟩

/-- Candidate cost `weight_to_dest` for one edge (source lines 63-73):
the edge weight alone on row 0, otherwise the wrapping sum of the edge
weight and the source's `min_path`; `none` models the `continue` fallback
taken when the source has no `min_path` (the branch the source comments as
unreachable). -/
def weightToDest (rowIdx : Nat) (nd : Node) (e : Edge) : Option Nat :=
  if rowIdx = 0 then some e.weight
  else
    match nd.maybe_min_path with
    | some m => some ((e.weight + m) % U)
    | none => none

/-- Relax one destination (source lines 76-83): set the destination's
`min_path` when absent, lower it when the candidate is strictly smaller,
otherwise leave the store unchanged. -/
def relaxEdge (s : Store) (w : Nat) (dest : Nat) : Store :=
  match (getNode s dest).maybe_min_path with
  | none => setMinPath s dest w
  | some d => if w < d then setMinPath s dest w else s

/-- Iterate the edges of the node being visited (the inner `for edge in
node.edges.iter()` loop).  `srcIdx` is the arena index of the visited node,
whose `RefCell` is mutably borrowed for the whole loop: if an edge's
destination is that same cell, `edge.destination.borrow()` panics, which the
model reports as `.error ()`. -/
def relaxEdges (srcIdx rowIdx : Nat) (nd : Node) : List Edge → Store → Except Unit Store
  | [], s => .ok s
  | e :: rest, s =>
    match weightToDest rowIdx nd e with
    | none => relaxEdges srcIdx rowIdx nd rest s
    | some w =>
      if e.destination = srcIdx then .error ()
      else relaxEdges srcIdx rowIdx nd rest (relaxEdge s w e.destination)

/-- Visit one node of the current row (the body of the `for node in
row.iter()` loop): skip inaccessible nodes, fold the terminal row into the
running minimum, otherwise relax all outgoing edges.  The Rust code reads
the node once through a `RefMut` guard held for the whole visit; here the
store `s` is fixed for the whole visit, so every `getNode s i` denotes that
same single read. -/
def processNode (s : Store) (acc : Option Nat) (rowIdx lastRow : Nat) (i : Nat) :
    Except Unit (Store × Option Nat) :=
  if rowIdx ≠ 0 ∧ (getNode s i).maybe_min_path = none then
    .ok (s, acc)
  else if rowIdx = lastRow then
    match (getNode s i).maybe_min_path with
    | some m => if acc.getD usizeMAX > m then .ok (s, some m) else .ok (s, acc)
    | none => .ok (s, acc)
  else
    match relaxEdges i rowIdx (getNode s i) (getNode s i).edges s with
    | .error e => .error e
    | .ok s' => .ok (s', acc)

/-- Visit every node of one row in order. -/
def processRow (rowIdx lastRow : Nat) : List Nat → Store → Option Nat → Except Unit (Store × Option Nat)
  | [], s, acc => .ok (s, acc)
  | i :: rest, s, acc =>
    match processNode s acc rowIdx lastRow i with
    | .error e => .error e
    | .ok (s', acc') => processRow rowIdx lastRow rest s' acc'

/-- Visit the rows in order, keeping the running row index (the
`input.iter().enumerate()` loop). -/
def runRows (lastRow : Nat) : List (List Nat) → Nat → Store → Option Nat → Except Unit (Store × Option Nat)
  | [], _, s, acc => .ok (s, acc)
  | row :: rest, rowIdx, s, acc =>
    match processRow rowIdx lastRow row s acc with
    | .error e => .error e
    | .ok (s', acc') => runRows lastRow rest (rowIdx + 1) s' acc'

/-- The solver `min_path_cost` (source lines 44-90).  It returns the final
`final_min_path` together with the mutated arena, or `.error ()` for the
`RefCell` panic.  `input.length - 1` is `Nat` truncated subtraction; on the
empty input (where the Rust wrapping subtraction yields `usize::MAX`) the
value is never compared against a row index, so the two agree observably. -/
def min_path_cost (input : Input) (s : Store) : Except Unit (Option Nat × Store) :=
  match runRows (input.length - 1) input 0 s none with
  | .error e => .error e
  | .ok (s', acc) => .ok (acc, s')

/-- Just the returned `Option<usize>` of the solver. -/
def min_path_cost_result (input : Input) (s : Store) : Except Unit (Option Nat) :=
  match min_path_cost input s with
  | .error e => .error e
  | .ok (acc, _) => .ok acc

/-! ### Minimum of an optional pair and of a list -/

/-- Minimum of two optional values, treating `none` as plus infinity. -/
def optMin : Option Nat → Option Nat → Option Nat
  | none, b => b
  | some a, none => some a
  | some a, some b => some (min a b)

theorem optMin_none_right (a : Option Nat) : optMin a none = a := by
  cases a <;> rfl

theorem optMin_assoc (a b c : Option Nat) :
    optMin (optMin a b) c = optMin a (optMin b c) := by
  cases a <;> cases b <;> cases c <;> simp [optMin, min_assoc]

/-- Concatenation of the images of a list-valued function. -/
def concatMap {α β : Type _} (f : α → List β) : List α → List β
  | [] => []
  | a :: l => f a ++ concatMap f l

theorem mem_concatMap {α β : Type _} {f : α → List β} {l : List α} {b : β} :
    b ∈ concatMap f l ↔ ∃ a ∈ l, b ∈ f a := by
  induction l with
  | nil => simp [concatMap]
  | cons a l ih => simp [concatMap, ih]

theorem concatMap_append {α β : Type _} (f : α → List β) (l1 l2 : List α) :
    concatMap f (l1 ++ l2) = concatMap f l1 ++ concatMap f l2 := by
  induction l1 with
  | nil => simp [concatMap]
  | cons a l ih => simp [concatMap, ih]

theorem map_concatMap {α β γ : Type _} (g : β → γ) (f : α → List β) (l : List α) :
    (concatMap f l).map g = concatMap (fun a => (f a).map g) l := by
  induction l with
  | nil => simp [concatMap]
  | cons a l ih => simp [concatMap, ih]

theorem filterMap_concatMap {α β γ : Type _} (g : β → Option γ) (f : α → List β) (l : List α) :
    (concatMap f l).filterMap g = concatMap (fun a => (f a).filterMap g) l := by
  induction l with
  | nil => simp [concatMap]
  | cons a l ih => simp [concatMap, ih, List.filterMap_append]

theorem concatMap_concatMap {α β γ : Type _} (g : β → List γ) (f : α → List β) (l : List α) :
    concatMap g (concatMap f l) = concatMap (fun a => concatMap g (f a)) l := by
  induction l with
  | nil => simp [concatMap]
  | cons a l ih => simp [concatMap, ih, concatMap_append]

theorem concatMap_map {α β γ : Type _} (g : β → List γ) (h : α → β) (l : List α) :
    concatMap g (l.map h) = concatMap (fun a => g (h a)) l := by
  induction l with
  | nil => simp [concatMap]
  | cons a l ih => simp [concatMap, ih]

theorem concatMap_congr {α β : Type _} {f g : α → List β} {l : List α}
    (h : ∀ a ∈ l, f a = g a) : concatMap f l = concatMap g l := by
  induction l with
  | nil => simp [concatMap]
  | cons a l ih =>
    simp only [concatMap]
    rw [h a (by simp), ih fun a ha => h a (by simp [ha])]

theorem concatMap_singleton {α β : Type _} (g : α → β) (l : List α) :
    concatMap (fun a => [g a]) l = l.map g := by
  induction l with
  | nil => simp [concatMap]
  | cons a l ih => simp [concatMap, ih]

/-- Minimum of a list of naturals, `none` on the empty list. -/
def listMin (l : List Nat) : Option Nat :=
  l.foldl (fun a w => optMin a (some w)) none

theorem foldl_optMin (l : List Nat) (a : Option Nat) :
    l.foldl (fun a w => optMin a (some w)) a = optMin a (listMin l) := by
  induction l generalizing a with
  | nil => simp [listMin, optMin_none_right]
  | cons x l ih =>
    show List.foldl _ (optMin a (some x)) l = optMin a (listMin (x :: l))
    rw [ih]
    have hxl : listMin (x :: l) = optMin (some x) (listMin l) := by
      show List.foldl _ (optMin none (some x)) l = _
      rw [ih]
      rfl
    rw [hxl, optMin_assoc]

theorem listMin_cons (x : Nat) (l : List Nat) :
    listMin (x :: l) = optMin (some x) (listMin l) := by
  show List.foldl _ (optMin none (some x)) l = _
  rw [foldl_optMin]
  rfl

theorem listMin_append (l1 l2 : List Nat) :
    listMin (l1 ++ l2) = optMin (listMin l1) (listMin l2) := by
  rw [listMin, List.foldl_append, ← listMin, foldl_optMin]

theorem listMin_eq_none_iff (l : List Nat) : listMin l = none ↔ l = [] := by
  cases l with
  | nil => simp [listMin]
  | cons x l =>
    rw [listMin_cons]
    cases listMin l <;> simp [optMin]

theorem listMin_mem {l : List Nat} {m : Nat} (h : listMin l = some m) : m ∈ l := by
  induction l with
  | nil => simp [listMin] at h
  | cons x l ih =>
    rw [listMin_cons] at h
    cases hl : listMin l with
    | none => rw [hl, optMin_none_right] at h; simp at h; simp [h]
    | some b =>
      rw [hl] at h
      simp only [optMin, Option.some.injEq] at h
      rcases Nat.le_total x b with hxb | hbx
      · simp [min_eq_left hxb] at h; simp [h]
      · rw [min_eq_right hbx] at h
        subst h
        exact List.mem_cons_of_mem _ (ih hl)

theorem le_listMin_of_mem {l : List Nat} {x : Nat} (h : x ∈ l) :
    ∃ m, listMin l = some m ∧ m ≤ x := by
  induction l with
  | nil => simp at h
  | cons y l ih =>
    rw [listMin_cons]
    rcases List.mem_cons.mp h with rfl | hx
    · cases hl : listMin l with
      | none => exact ⟨x, by simp [optMin], le_refl x⟩
      | some b => exact ⟨min x b, by simp [optMin], Nat.min_le_left _ _⟩
    · obtain ⟨m, hm, hmx⟩ := ih hx
      rw [hm]
      exact ⟨min y m, by simp [optMin], le_trans (Nat.min_le_right _ _) hmx⟩

theorem listMin_congr {l1 l2 : List Nat}
    (h1 : ∀ x ∈ l1, ∃ y ∈ l2, y ≤ x) (h2 : ∀ y ∈ l2, ∃ x ∈ l1, x ≤ y) :
    listMin l1 = listMin l2 := by
  cases hm1 : listMin l1 with
  | none =>
    rw [listMin_eq_none_iff] at hm1
    subst hm1
    cases hm2 : listMin l2 with
    | none => rfl
    | some m2 =>
      obtain ⟨x, hx, _⟩ := h2 m2 (listMin_mem hm2)
      simp at hx
  | some m1 =>
    obtain ⟨y, hy, hym⟩ := h1 m1 (listMin_mem hm1)
    obtain ⟨m2, hm2, hm2y⟩ := le_listMin_of_mem hy
    rw [hm2]
    obtain ⟨x, hx, hxm2⟩ := h2 m2 (listMin_mem hm2)
    obtain ⟨m1', hm1', hm1x⟩ := le_listMin_of_mem hx
    rw [hm1'] at hm1
    cases hm1
    exact congrArg some (Nat.le_antisymm
      (le_trans hm1x hxm2) (le_trans hm2y hym))

/-! ### Walks, the specification-side minimum, and well-formed inputs -/

/-- Row `t` of the input (empty when out of range). -/
def row (input : Input) (t : Nat) : List Nat := input.getD t []

/-- Cost/endpoint pairs of all `k`-edge walks out of node `i`: the pair
`(c, j)` records an edge sequence of total weight `c` from `i` to `j`. -/
def walksFrom (s : Store) : Nat → Nat → List (Nat × Nat)
  | 0, i => [(0, i)]
  | k + 1, i =>
    concatMap (fun e => (walksFrom s k e.destination).map fun cw => (e.weight + cw.1, cw.2))
      (getNode s i).edges

/-- A `(k+1)`-edge walk is a `k`-edge walk followed by one more edge. -/
theorem walksFrom_succ (s : Store) (k i : Nat) :
    walksFrom s (k + 1) i =
      concatMap (fun cw => ((getNode s cw.2).edges).map fun e => (cw.1 + e.weight, e.destination))
        (walksFrom s k i) := by
  induction k generalizing i with
  | zero =>
    show concatMap _ (getNode s i).edges = _
    simp [walksFrom, concatMap, concatMap_singleton]
  | succ k ih =>
    rw [show walksFrom s (k + 1 + 1) i =
        concatMap (fun e => (walksFrom s (k + 1) e.destination).map
          fun cw => (e.weight + cw.1, cw.2)) (getNode s i).edges from rfl]
    rw [show walksFrom s (k + 1) i =
        concatMap (fun e => (walksFrom s k e.destination).map
          fun cw => (e.weight + cw.1, cw.2)) (getNode s i).edges from rfl]
    rw [concatMap_concatMap]
    apply concatMap_congr
    intro e _
    rw [ih, map_concatMap, concatMap_map]
    apply concatMap_congr
    intro cw _
    rw [List.map_map]
    apply List.map_congr_left
    intro e' _
    show (e.weight + (cw.1 + e'.weight), e'.destination)
        = (e.weight + cw.1 + e'.weight, e'.destination)
    rw [Nat.add_assoc]

/-- Walk enumeration only looks at the edge structure of the store. -/
theorem walksFrom_congr {s s' : Store}
    (h : ∀ i, (getNode s' i).edges = (getNode s i).edges) :
    ∀ k i, walksFrom s' k i = walksFrom s k i := by
  intro k
  induction k with
  | zero => intro i; rfl
  | succ k ih =>
    intro i
    show concatMap _ (getNode s' i).edges = concatMap _ (getNode s i).edges
    rw [h i]
    apply concatMap_congr
    intro e _
    rw [ih]

/-- Least cost of a `t`-edge walk from a node of `row0` ending at `j`
(`none` when there is no such walk). -/
def costTo (s : Store) (row0 : List Nat) (t j : Nat) : Option Nat :=
  listMin ((concatMap (walksFrom s t) row0).filterMap
    fun cw => if cw.2 = j then some cw.1 else none)

/-- All full walks: walks with one edge per row boundary, starting in row 0.
Under well-formedness these are exactly the row-0-to-terminal-row paths. -/
def fullWalks (input : Input) (s : Store) : List (Nat × Nat) :=
  concatMap (walksFrom s (input.length - 1)) (input.headD [])

/-- Total weights of all row-0-to-terminal-row paths.  With zero or one rows
there are no edges to traverse and hence, by the contract, no paths. -/
def allPathCosts (input : Input) (s : Store) : List Nat :=
  if input.length ≤ 1 then [] else (fullWalks input s).map fun cw => cw.1

/-- The specified result: the least total weight of any row-0-to-last-row
path, `none` when no path exists. -/
def specMinCost (input : Input) (s : Store) : Option Nat :=
  listMin (allPathCosts input s)

/-- Structural well-formedness of an input, exactly the constraints assumed
by the contract (plus index validity, which the `Rc` representation gives
for free): at least one row, edges target only the immediately following
row, no node occurs in two rows, and all row entries are live indices. -/
def WellStructured (input : Input) (s : Store) : Prop :=
  input ≠ [] ∧
  (∀ t, t < input.length - 1 → ∀ i ∈ row input t, ∀ e ∈ (getNode s i).edges,
      e.destination ∈ row input (t + 1)) ∧
  (∀ t1, t1 < input.length → ∀ t2, t2 < input.length →
      ∀ i ∈ row input t1, i ∈ row input t2 → t1 = t2) ∧
  (∀ t, t < input.length → ∀ i ∈ row input t, i < s.length)

/-- Every node starts with `min_path` absent. -/
def Unset (input : Input) (s : Store) : Prop :=
  ∀ t, t < input.length → ∀ i ∈ row input t, (getNode s i).maybe_min_path = none

/-- A well-formed input in the sense of the contract. -/
def WellFormed (input : Input) (s : Store) : Prop :=
  WellStructured input s ∧ Unset input s

/-- Every partial path sum stays strictly below `usize::MAX`: the cost of
any walk out of a row-0 node, of any length up to the row count, is below
the sentinel (so no wrapping occurs and no cost collides with it). -/
def BoundedCosts (input : Input) (s : Store) : Prop :=
  ∀ t, t < input.length → ∀ i ∈ row input 0, ∀ cw ∈ walksFrom s t i, cw.1 < usizeMAX

instance (input : Input) (s : Store) : Decidable (WellStructured input s) := by
  unfold WellStructured
  infer_instance

instance (input : Input) (s : Store) : Decidable (Unset input s) := by
  unfold Unset
  infer_instance

instance (input : Input) (s : Store) : Decidable (WellFormed input s) := by
  unfold WellFormed
  infer_instance

instance (input : Input) (s : Store) : Decidable (BoundedCosts input s) := by
  unfold BoundedCosts
  infer_instance

/-- Boolean order on `min_path` fields: `minPathLEb new old` says the new
value does not exceed the old one, where absent counts as plus infinity
(so a value can be introduced or lowered, never raised or cleared). -/
def minPathLEb : Option Nat → Option Nat → Bool
  | _, none => true
  | none, some _ => false
  | some a, some b => decide (a ≤ b)

/-! ### Store update lemmas -/

theorem length_setMinPath (s : Store) (i v : Nat) :
    (setMinPath s i v).length = s.length :=
  List.length_set ..

theorem getNode_setMinPath_self {s : Store} {i : Nat} (h : i < s.length) (v : Nat) :
    getNode (setMinPath s i v) i = ⟨(getNode s i).edges, some v⟩ := by
  unfold getNode setMinPath
  rw [List.getD_eq_getElem?_getD, List.getElem?_set]
  simp [h, getNode, List.getD_eq_getElem?_getD, List.getElem?_eq_getElem h]

theorem getNode_setMinPath_ne {s : Store} {i j : Nat} (h : i ≠ j) (v : Nat) :
    getNode (setMinPath s i v) j = getNode s j := by
  unfold getNode setMinPath
  rw [List.getD_eq_getElem?_getD, List.getElem?_set, if_neg h, ← List.getD_eq_getElem?_getD]

theorem edges_setMinPath (s : Store) (i v j : Nat) :
    (getNode (setMinPath s i v) j).edges = (getNode s j).edges := by
  by_cases hij : i = j
  · subst hij
    by_cases hi : i < s.length
    · rw [getNode_setMinPath_self hi]
    · unfold setMinPath
      rw [List.set_eq_of_length_le (Nat.le_of_not_lt hi)]
  · rw [getNode_setMinPath_ne hij]

theorem length_relaxEdge (s : Store) (w dest : Nat) :
    (relaxEdge s w dest).length = s.length := by
  unfold relaxEdge
  cases (getNode s dest).maybe_min_path with
  | none => exact length_setMinPath ..
  | some d =>
    show (if w < d then setMinPath s dest w else s).length = s.length
    by_cases hw : w < d
    · rw [if_pos hw]; exact length_setMinPath ..
    · rw [if_neg hw]

theorem edges_relaxEdge (s : Store) (w dest j : Nat) :
    (getNode (relaxEdge s w dest) j).edges = (getNode s j).edges := by
  unfold relaxEdge
  cases (getNode s dest).maybe_min_path with
  | none => exact edges_setMinPath ..
  | some d =>
    show (getNode (if w < d then setMinPath s dest w else s) j).edges = (getNode s j).edges
    by_cases hw : w < d
    · rw [if_pos hw]; exact edges_setMinPath ..
    · rw [if_neg hw]

theorem getNode_relaxEdge_ne {s : Store} {w dest j : Nat} (h : j ≠ dest) :
    getNode (relaxEdge s w dest) j = getNode s j := by
  unfold relaxEdge
  cases (getNode s dest).maybe_min_path with
  | none => exact getNode_setMinPath_ne (Ne.symm h) _
  | some d =>
    show getNode (if w < d then setMinPath s dest w else s) j = getNode s j
    by_cases hw : w < d
    · rw [if_pos hw]; exact getNode_setMinPath_ne (Ne.symm h) _
    · rw [if_neg hw]

theorem minp_relaxEdge_self {s : Store} {dest : Nat} (h : dest < s.length) (w : Nat) :
    (getNode (relaxEdge s w dest) dest).maybe_min_path
      = optMin (getNode s dest).maybe_min_path (some w) := by
  unfold relaxEdge
  cases hd : (getNode s dest).maybe_min_path with
  | none => rw [getNode_setMinPath_self h]; rfl
  | some d =>
    show (getNode (if w < d then setMinPath s dest w else s) dest).maybe_min_path = _
    by_cases hw : w < d
    · rw [if_pos hw, getNode_setMinPath_self h]
      show some w = some (min d w)
      rw [min_eq_right (Nat.le_of_lt hw)]
    · rw [if_neg hw, hd]
      show some d = some (min d w)
      rw [min_eq_left (Nat.le_of_not_lt hw)]

/-! ### Applying a list of relaxations -/

/-- Apply a list of `(candidate weight, destination)` relaxations in order. -/
def applyCands (s : Store) : List (Nat × Nat) → Store
  | [] => s
  | wd :: l => applyCands (relaxEdge s wd.1 wd.2) l

theorem applyCands_append (s : Store) (l1 l2 : List (Nat × Nat)) :
    applyCands s (l1 ++ l2) = applyCands (applyCands s l1) l2 := by
  induction l1 generalizing s with
  | nil => rfl
  | cons wd l ih => simp [applyCands, ih]

theorem length_applyCands (s : Store) (l : List (Nat × Nat)) :
    (applyCands s l).length = s.length := by
  induction l generalizing s with
  | nil => rfl
  | cons wd l ih => rw [applyCands, ih, length_relaxEdge]

theorem edges_applyCands (s : Store) (l : List (Nat × Nat)) (j : Nat) :
    (getNode (applyCands s l) j).edges = (getNode s j).edges := by
  induction l generalizing s with
  | nil => rfl
  | cons wd l ih => rw [applyCands, ih, edges_relaxEdge]

theorem getNode_applyCands_ne {s : Store} {l : List (Nat × Nat)} {j : Nat}
    (h : ∀ wd ∈ l, wd.2 ≠ j) :
    getNode (applyCands s l) j = getNode s j := by
  induction l generalizing s with
  | nil => rfl
  | cons wd l ih =>
    rw [applyCands, ih fun wd hwd => h wd (by simp [hwd]),
      getNode_relaxEdge_ne (Ne.symm (h wd (by simp)))]

theorem minp_applyCands {s : Store} {l : List (Nat × Nat)}
    (hr : ∀ wd ∈ l, wd.2 < s.length) (j : Nat) :
    (getNode (applyCands s l) j).maybe_min_path
      = optMin (getNode s j).maybe_min_path
          (listMin (l.filterMap fun wd => if wd.2 = j then some wd.1 else none)) := by
  induction l generalizing s with
  | nil => simp [applyCands, listMin, optMin_none_right]
  | cons wd l ih =>
    have hr' : ∀ wd' ∈ l, wd'.2 < (relaxEdge s wd.1 wd.2).length := by
      intro wd' hwd'
      rw [length_relaxEdge]
      exact hr wd' (by simp [hwd'])
    rw [applyCands, ih hr']
    by_cases hj : wd.2 = j
    · subst hj
      rw [minp_relaxEdge_self (hr wd (by simp)) wd.1]
      rw [List.filterMap_cons, if_pos rfl, listMin_cons, optMin_assoc]
    · rw [getNode_relaxEdge_ne (Ne.symm hj), List.filterMap_cons]
      simp only [if_neg hj]

/-! ### Characterizing one relaxation sweep over a row -/

/-- The `(candidate weight, destination)` pairs a visited node emits. -/
def nodeCands (rowIdx : Nat) (nd : Node) : List (Nat × Nat) :=
  nd.edges.filterMap fun e => (weightToDest rowIdx nd e).map fun w => (w, e.destination)

theorem mem_nodeCands_dest {rowIdx : Nat} {nd : Node} {wd : Nat × Nat}
    (h : wd ∈ nodeCands rowIdx nd) : ∃ e ∈ nd.edges, wd.2 = e.destination := by
  obtain ⟨e, he, hwd⟩ := List.mem_filterMap.mp h
  obtain ⟨w, _, hw⟩ := Option.map_eq_some'.mp hwd
  exact ⟨e, he, by rw [← hw]⟩

theorem relaxEdges_ok {srcIdx rowIdx : Nat} {nd : Node} :
    ∀ (es : List Edge) (s : Store),
    (∀ e ∈ es, e.destination ≠ srcIdx) →
    relaxEdges srcIdx rowIdx nd es s =
      .ok (applyCands s
        (es.filterMap fun e => (weightToDest rowIdx nd e).map fun w => (w, e.destination))) := by
  intro es
  induction es with
  | nil => intro s _; rfl
  | cons e es ih =>
    intro s h
    cases hw : weightToDest rowIdx nd e with
    | none =>
      show relaxEdges srcIdx rowIdx nd (e :: es) s = _
      rw [relaxEdges, hw, List.filterMap_cons, hw]
      exact ih s fun e' he' => h e' (by simp [he'])
    | some w =>
      show relaxEdges srcIdx rowIdx nd (e :: es) s = _
      rw [relaxEdges, hw, List.filterMap_cons, hw]
      show (if e.destination = srcIdx then Except.error () else _) = _
      rw [if_neg (h e (by simp))]
      show relaxEdges srcIdx rowIdx nd es (relaxEdge s w e.destination) = _
      rw [ih _ fun e' he' => h e' (by simp [he'])]
      rfl

theorem processNode_relax {s : Store} {acc : Option Nat} {rowIdx lastRow i : Nat}
    (hlast : rowIdx ≠ lastRow)
    (hsafe : ∀ e ∈ (getNode s i).edges, e.destination ≠ i) :
    processNode s acc rowIdx lastRow i
      = .ok (applyCands s (nodeCands rowIdx (getNode s i)), acc) := by
  unfold processNode
  by_cases hskip : rowIdx ≠ 0 ∧ (getNode s i).maybe_min_path = none
  · rw [if_pos hskip]
    have hnil : nodeCands rowIdx (getNode s i) = [] := by
      apply List.filterMap_eq_nil_iff.mpr
      intro e _
      unfold weightToDest
      rw [if_neg hskip.1, hskip.2]
      rfl
    rw [hnil]
    rfl
  · rw [if_neg hskip, if_neg hlast, relaxEdges_ok _ _ hsafe]
    rfl

/-- Candidates emitted by a whole row, computed against one fixed store. -/
def rowCands (rowIdx : Nat) (s : Store) (ids : List Nat) : List (Nat × Nat) :=
  concatMap (fun i => nodeCands rowIdx (getNode s i)) ids

theorem processRow_relax {rowIdx lastRow : Nat} (hlast : rowIdx ≠ lastRow) :
    ∀ (ids : List Nat) (s : Store) (acc : Option Nat),
    (∀ i ∈ ids, ∀ e ∈ (getNode s i).edges, e.destination ∉ ids) →
    processRow rowIdx lastRow ids s acc
      = .ok (applyCands s (rowCands rowIdx s ids), acc) := by
  intro ids
  induction ids with
  | nil => intro s acc _; rfl
  | cons i ids ih =>
    intro s acc h
    have hsafe : ∀ e ∈ (getNode s i).edges, e.destination ≠ i := by
      intro e he hdest
      exact h i (by simp) e he (by rw [hdest]; simp)
    rw [processRow, processNode_relax hlast hsafe]
    show processRow rowIdx lastRow ids (applyCands s (nodeCands rowIdx (getNode s i))) acc = _
    have hnodes : ∀ j ∈ ids,
        getNode (applyCands s (nodeCands rowIdx (getNode s i))) j = getNode s j := by
      intro j hj
      apply getNode_applyCands_ne
      intro wd hwd hj2
      obtain ⟨e, he, hdst⟩ := mem_nodeCands_dest hwd
      exact h i (by simp) e he (by rw [← hdst, hj2]; simp [hj])
    have h' : ∀ i' ∈ ids,
        ∀ e ∈ (getNode (applyCands s (nodeCands rowIdx (getNode s i))) i').edges,
          e.destination ∉ ids := by
      intro i' hi' e he hd
      rw [hnodes i' hi'] at he
      exact h i' (by simp [hi']) e he (by simp [hd])
    rw [ih _ acc h']
    have hcands : rowCands rowIdx (applyCands s (nodeCands rowIdx (getNode s i))) ids
        = rowCands rowIdx s ids := by
      apply concatMap_congr
      intro j hj
      rw [hnodes j hj]
    rw [hcands,
      show rowCands rowIdx s (i :: ids)
          = nodeCands rowIdx (getNode s i) ++ rowCands rowIdx s ids from rfl,
      applyCands_append]

/-! ### The accumulator is only written on the terminal row -/

theorem processNode_acc_of_ne_last {s : Store} {acc : Option Nat}
    {rowIdx lastRow i : Nat} {s2 : Store} {acc2 : Option Nat}
    (hlast : rowIdx ≠ lastRow)
    (h : processNode s acc rowIdx lastRow i = .ok (s2, acc2)) : acc2 = acc := by
  unfold processNode at h
  by_cases hskip : rowIdx ≠ 0 ∧ (getNode s i).maybe_min_path = none
  · rw [if_pos hskip] at h
    cases h
    rfl
  · rw [if_neg hskip, if_neg hlast] at h
    cases hre : relaxEdges i rowIdx (getNode s i) (getNode s i).edges s with
    | error e => rw [hre] at h; cases h
    | ok s' =>
      rw [hre] at h
      cases h
      rfl

theorem processRow_acc_of_ne_last {rowIdx lastRow : Nat} (hlast : rowIdx ≠ lastRow) :
    ∀ (ids : List Nat) (s : Store) (acc : Option Nat) (s' : Store) (acc' : Option Nat),
    processRow rowIdx lastRow ids s acc = .ok (s', acc') → acc' = acc := by
  intro ids
  induction ids with
  | nil =>
    intro s acc s' acc' h
    cases h
    rfl
  | cons i ids ih =>
    intro s acc s' acc' h
    rw [processRow] at h
    cases hpn : processNode s acc rowIdx lastRow i with
    | error e => rw [hpn] at h; cases h
    | ok p =>
      rw [hpn] at h
      rw [ih p.1 p.2 s' acc' h]
      exact processNode_acc_of_ne_last hlast (by rw [hpn])

theorem runRows_acc {lastRow : Nat} :
    ∀ (rows : List (List Nat)) (k : Nat) (s : Store) (acc : Option Nat)
      (s' : Store) (acc' : Option Nat),
    (∀ j, j < rows.length → k + j = lastRow → rows.getD j [] = []) →
    runRows lastRow rows k s acc = .ok (s', acc') → acc' = acc := by
  intro rows
  induction rows with
  | nil =>
    intro k s acc s' acc' _ h
    cases h
    rfl
  | cons rrow rest ih =>
    intro k s acc s' acc' hrows h
    rw [runRows] at h
    cases hpr : processRow k lastRow rrow s acc with
    | error e => rw [hpr] at h; cases h
    | ok p =>
      rw [hpr] at h
      have hacc1 : p.2 = acc := by
        by_cases hk : k = lastRow
        · have hempty : rrow = [] := hrows 0 (by simp) (by omega)
          rw [hempty] at hpr
          cases hpr
          rfl
        · exact processRow_acc_of_ne_last hk _ _ _ _ _ (by rw [hpr])
      rw [← hacc1]
      apply ih (k + 1) p.1 p.2 s' acc' _ h
      intro j hj hkj
      exact hrows (j + 1) (by simpa using Nat.succ_lt_succ hj) (by omega)

/-! ### Frame lemmas: only `maybe_min_path` is ever written -/

theorem getNode_oor {s : Store} {i : Nat} (h : ¬i < s.length) :
    getNode s i = ⟨[], none⟩ := by
  unfold getNode
  rw [List.getD_eq_getElem?_getD, List.getElem?_eq_none (Nat.le_of_not_lt h)]
  rfl

theorem relaxEdges_frame {srcIdx rowIdx : Nat} {nd : Node} :
    ∀ (es : List Edge) (s s2 : Store), relaxEdges srcIdx rowIdx nd es s = .ok s2 →
      (∀ j, (getNode s2 j).edges = (getNode s j).edges) ∧ s2.length = s.length := by
  intro es
  induction es with
  | nil =>
    intro s s2 h
    cases h
    exact ⟨fun j => rfl, rfl⟩
  | cons e es ih =>
    intro s s2 h
    rw [relaxEdges] at h
    cases hw : weightToDest rowIdx nd e with
    | none =>
      rw [hw] at h
      exact ih s s2 h
    | some w =>
      rw [hw] at h
      change (if e.destination = srcIdx then Except.error ()
        else relaxEdges srcIdx rowIdx nd es (relaxEdge s w e.destination)) = Except.ok s2 at h
      by_cases hd : e.destination = srcIdx
      · rw [if_pos hd] at h
        cases h
      · rw [if_neg hd] at h
        obtain ⟨he, hl⟩ := ih _ s2 h
        refine ⟨fun j => ?_, by rw [hl, length_relaxEdge]⟩
        rw [he j, edges_relaxEdge]

theorem processNode_frame {s : Store} {acc : Option Nat} {rowIdx lastRow i : Nat}
    {s2 : Store} {acc2 : Option Nat}
    (h : processNode s acc rowIdx lastRow i = .ok (s2, acc2)) :
    (∀ j, (getNode s2 j).edges = (getNode s j).edges) ∧ s2.length = s.length := by
  unfold processNode at h
  by_cases hskip : rowIdx ≠ 0 ∧ (getNode s i).maybe_min_path = none
  · rw [if_pos hskip] at h
    cases h
    exact ⟨fun j => rfl, rfl⟩
  · rw [if_neg hskip] at h
    by_cases hlast : rowIdx = lastRow
    · rw [if_pos hlast] at h
      cases hm : (getNode s i).maybe_min_path with
      | none =>
        rw [hm] at h
        cases h
        exact ⟨fun j => rfl, rfl⟩
      | some m =>
        rw [hm] at h
        change (if acc.getD usizeMAX > m then Except.ok (s, some m)
          else Except.ok (s, acc)) = Except.ok (s2, acc2) at h
        by_cases hacc : acc.getD usizeMAX > m
        · rw [if_pos hacc] at h
          cases h
          exact ⟨fun j => rfl, rfl⟩
        · rw [if_neg hacc] at h
          cases h
          exact ⟨fun j => rfl, rfl⟩
    · rw [if_neg hlast] at h
      cases hre : relaxEdges i rowIdx (getNode s i) (getNode s i).edges s with
      | error e => rw [hre] at h; cases h
      | ok s3 =>
        rw [hre] at h
        cases h
        exact relaxEdges_frame _ _ _ hre

theorem processRow_frame {rowIdx lastRow : Nat} :
    ∀ (ids : List Nat) (s : Store) (acc : Option Nat) (s' : Store) (acc' : Option Nat),
    processRow rowIdx lastRow ids s acc = .ok (s', acc') →
      (∀ j, (getNode s' j).edges = (getNode s j).edges) ∧ s'.length = s.length := by
  intro ids
  induction ids with
  | nil =>
    intro s acc s' acc' h
    cases h
    exact ⟨fun j => rfl, rfl⟩
  | cons i ids ih =>
    intro s acc s' acc' h
    rw [processRow] at h
    cases hpn : processNode s acc rowIdx lastRow i with
    | error e => rw [hpn] at h; cases h
    | ok p =>
      rw [hpn] at h
      obtain ⟨he1, hl1⟩ := @processNode_frame s acc rowIdx lastRow i p.1 p.2 (by rw [hpn])
      obtain ⟨he2, hl2⟩ := ih p.1 p.2 s' acc' h
      refine ⟨fun j => ?_, by rw [hl2, hl1]⟩
      rw [he2 j, he1 j]

theorem runRows_frame {lastRow : Nat} :
    ∀ (rows : List (List Nat)) (k : Nat) (s : Store) (acc : Option Nat)
      (s' : Store) (acc' : Option Nat),
    runRows lastRow rows k s acc = .ok (s', acc') →
      (∀ j, (getNode s' j).edges = (getNode s j).edges) ∧ s'.length = s.length := by
  intro rows
  induction rows with
  | nil =>
    intro k s acc s' acc' h
    cases h
    exact ⟨fun j => rfl, rfl⟩
  | cons rrow rest ih =>
    intro k s acc s' acc' h
    rw [runRows] at h
    cases hpr : processRow k lastRow rrow s acc with
    | error e => rw [hpr] at h; cases h
    | ok p =>
      rw [hpr] at h
      obtain ⟨he1, hl1⟩ := processRow_frame rrow s acc p.1 p.2 (by rw [hpr])
      obtain ⟨he2, hl2⟩ := ih (k + 1) p.1 p.2 s' acc' h
      refine ⟨fun j => ?_, by rw [hl2, hl1]⟩
      rw [he2 j, he1 j]

/-! ### Totality in the absence of self-loops -/

/-- No node of the arena carries an edge back to itself.  This is the exact
condition under which the `RefCell` double-borrow panic cannot fire. -/
def NoSelfLoops (s : Store) : Prop :=
  ∀ i, i < s.length → ∀ e ∈ (getNode s i).edges, e.destination ≠ i

instance (s : Store) : Decidable (NoSelfLoops s) := by
  unfold NoSelfLoops
  infer_instance

theorem noSelfLoops_node {s : Store} (h : NoSelfLoops s) (i : Nat) :
    ∀ e ∈ (getNode s i).edges, e.destination ≠ i := by
  by_cases hi : i < s.length
  · exact h i hi
  · rw [getNode_oor hi]
    intro e he
    simp at he

theorem processNode_isOk {s : Store} {acc : Option Nat} {rowIdx lastRow i : Nat}
    (h : ∀ e ∈ (getNode s i).edges, e.destination ≠ i) :
    ∃ p, processNode s acc rowIdx lastRow i = .ok p := by
  unfold processNode
  by_cases hskip : rowIdx ≠ 0 ∧ (getNode s i).maybe_min_path = none
  · rw [if_pos hskip]
    exact ⟨_, rfl⟩
  · rw [if_neg hskip]
    by_cases hlast : rowIdx = lastRow
    · rw [if_pos hlast]
      cases hm : (getNode s i).maybe_min_path with
      | none => exact ⟨_, rfl⟩
      | some m =>
        show ∃ p, (if acc.getD usizeMAX > m then Except.ok (s, some m)
          else Except.ok (s, acc)) = Except.ok p
        by_cases hacc : acc.getD usizeMAX > m
        · rw [if_pos hacc]; exact ⟨_, rfl⟩
        · rw [if_neg hacc]; exact ⟨_, rfl⟩
    · rw [if_neg hlast, relaxEdges_ok _ _ h]
      exact ⟨_, rfl⟩

theorem processRow_isOk {rowIdx lastRow : Nat} :
    ∀ (ids : List Nat) (s : Store) (acc : Option Nat), NoSelfLoops s →
    ∃ p, processRow rowIdx lastRow ids s acc = .ok p := by
  intro ids
  induction ids with
  | nil => intro s acc _; exact ⟨_, rfl⟩
  | cons i ids ih =>
    intro s acc h
    obtain ⟨p, hp⟩ := @processNode_isOk s acc rowIdx lastRow i (noSelfLoops_node h i)
    obtain ⟨he, hl⟩ := @processNode_frame s acc rowIdx lastRow i p.1 p.2 (by rw [hp])
    have h' : NoSelfLoops p.1 := by
      intro j hj e hej
      rw [he j] at hej
      exact h j (by rw [← hl]; exact hj) e hej
    obtain ⟨q, hq⟩ := ih p.1 p.2 h'
    refine ⟨q, ?_⟩
    rw [processRow, hp]
    exact hq

theorem runRows_isOk {lastRow : Nat} :
    ∀ (rows : List (List Nat)) (k : Nat) (s : Store) (acc : Option Nat), NoSelfLoops s →
    ∃ p, runRows lastRow rows k s acc = .ok p := by
  intro rows
  induction rows with
  | nil => intro k s acc _; exact ⟨_, rfl⟩
  | cons rrow rest ih =>
    intro k s acc h
    obtain ⟨p, hp⟩ := processRow_isOk rrow s acc h
    obtain ⟨he, hl⟩ := processRow_frame rrow s acc p.1 p.2 (by rw [hp])
    have h' : NoSelfLoops p.1 := by
      intro j hj e hej
      rw [he j] at hej
      exact h j (by rw [← hl]; exact hj) e hej
    obtain ⟨q, hq⟩ := ih (k + 1) p.1 p.2 h'
    refine ⟨q, ?_⟩
    rw [runRows, hp]
    exact hq

/-! ### Monotonicity of `min_path` under relaxation -/

theorem minPathLEb_refl (x : Option Nat) : minPathLEb x x = true := by
  cases x with
  | none => rfl
  | some a => simp [minPathLEb]

theorem minPathLEb_trans {a b c : Option Nat}
    (h1 : minPathLEb a b = true) (h2 : minPathLEb b c = true) :
    minPathLEb a c = true := by
  cases a <;> cases b <;> cases c <;>
    simp [minPathLEb, decide_eq_true_iff] at * <;> omega

theorem minp_some_lt_length {s : Store} {i d : Nat}
    (h : (getNode s i).maybe_min_path = some d) : i < s.length := by
  by_contra hi
  rw [getNode_oor hi] at h
  cases h

theorem relaxEdge_mono (s : Store) (w dest j : Nat) :
    minPathLEb (getNode (relaxEdge s w dest) j).maybe_min_path
      (getNode s j).maybe_min_path = true := by
  by_cases hj : j = dest
  · subst hj
    cases hd : (getNode s j).maybe_min_path with
    | none => cases (getNode (relaxEdge s w j) j).maybe_min_path <;> rfl
    | some d =>
      have hlt := minp_some_lt_length hd
      unfold relaxEdge
      rw [hd]
      show minPathLEb (getNode (if w < d then setMinPath s j w else s) j).maybe_min_path
        (some d) = true
      by_cases hw : w < d
      · rw [if_pos hw, getNode_setMinPath_self hlt]
        simp [minPathLEb, Nat.le_of_lt hw]
      · rw [if_neg hw, hd]
        simp [minPathLEb]
  · rw [getNode_relaxEdge_ne hj]
    exact minPathLEb_refl _

theorem relaxEdges_mono {srcIdx rowIdx : Nat} {nd : Node} :
    ∀ (es : List Edge) (s s2 : Store), relaxEdges srcIdx rowIdx nd es s = .ok s2 →
    ∀ j, minPathLEb (getNode s2 j).maybe_min_path (getNode s j).maybe_min_path = true := by
  intro es
  induction es with
  | nil =>
    intro s s2 h j
    cases h
    exact minPathLEb_refl _
  | cons e es ih =>
    intro s s2 h j
    rw [relaxEdges] at h
    cases hw : weightToDest rowIdx nd e with
    | none =>
      rw [hw] at h
      exact ih s s2 h j
    | some w =>
      rw [hw] at h
      change (if e.destination = srcIdx then Except.error ()
        else relaxEdges srcIdx rowIdx nd es (relaxEdge s w e.destination)) = Except.ok s2 at h
      by_cases hd : e.destination = srcIdx
      · rw [if_pos hd] at h
        cases h
      · rw [if_neg hd] at h
        exact minPathLEb_trans (ih _ s2 h j) (relaxEdge_mono s w e.destination j)

theorem processNode_mono {s : Store} {acc : Option Nat} {rowIdx lastRow i : Nat}
    {s2 : Store} {acc2 : Option Nat}
    (h : processNode s acc rowIdx lastRow i = .ok (s2, acc2)) :
    ∀ j, minPathLEb (getNode s2 j).maybe_min_path (getNode s j).maybe_min_path = true := by
  unfold processNode at h
  by_cases hskip : rowIdx ≠ 0 ∧ (getNode s i).maybe_min_path = none
  · rw [if_pos hskip] at h
    cases h
    exact fun j => minPathLEb_refl _
  · rw [if_neg hskip] at h
    by_cases hlast : rowIdx = lastRow
    · rw [if_pos hlast] at h
      cases hm : (getNode s i).maybe_min_path with
      | none =>
        rw [hm] at h
        cases h
        exact fun j => minPathLEb_refl _
      | some m =>
        rw [hm] at h
        change (if acc.getD usizeMAX > m then Except.ok (s, some m)
          else Except.ok (s, acc)) = Except.ok (s2, acc2) at h
        by_cases hacc : acc.getD usizeMAX > m
        · rw [if_pos hacc] at h
          cases h
          exact fun j => minPathLEb_refl _
        · rw [if_neg hacc] at h
          cases h
          exact fun j => minPathLEb_refl _
    · rw [if_neg hlast] at h
      cases hre : relaxEdges i rowIdx (getNode s i) (getNode s i).edges s with
      | error e => rw [hre] at h; cases h
      | ok s3 =>
        rw [hre] at h
        cases h
        exact relaxEdges_mono _ _ _ hre

theorem processRow_mono {rowIdx lastRow : Nat} :
    ∀ (ids : List Nat) (s : Store) (acc : Option Nat) (s' : Store) (acc' : Option Nat),
    processRow rowIdx lastRow ids s acc = .ok (s', acc') →
    ∀ j, minPathLEb (getNode s' j).maybe_min_path (getNode s j).maybe_min_path = true := by
  intro ids
  induction ids with
  | nil =>
    intro s acc s' acc' h j
    cases h
    exact minPathLEb_refl _
  | cons i ids ih =>
    intro s acc s' acc' h j
    rw [processRow] at h
    cases hpn : processNode s acc rowIdx lastRow i with
    | error e => rw [hpn] at h; cases h
    | ok p =>
      rw [hpn] at h
      exact minPathLEb_trans (ih p.1 p.2 s' acc' h j)
        (@processNode_mono s acc rowIdx lastRow i p.1 p.2 (by rw [hpn]) j)

theorem runRows_mono {lastRow : Nat} :
    ∀ (rows : List (List Nat)) (k : Nat) (s : Store) (acc : Option Nat)
      (s' : Store) (acc' : Option Nat),
    runRows lastRow rows k s acc = .ok (s', acc') →
    ∀ j, minPathLEb (getNode s' j).maybe_min_path (getNode s j).maybe_min_path = true := by
  intro rows
  induction rows with
  | nil =>
    intro k s acc s' acc' h j
    cases h
    exact minPathLEb_refl _
  | cons rrow rest ih =>
    intro k s acc s' acc' h j
    rw [runRows] at h
    cases hpr : processRow k lastRow rrow s acc with
    | error e => rw [hpr] at h; cases h
    | ok p =>
      rw [hpr] at h
      exact minPathLEb_trans (ih (k + 1) p.1 p.2 s' acc' h j)
        (processRow_mono rrow s acc p.1 p.2 (by rw [hpr]) j)

/-! ### Concrete graphs used by the claims -/

/-- The arena of the source's `it_works` test graph:
`0 = A`, `1 = D`, `2 = B`, `3 = C`, `4 = E`, `5 = F`. -/
def testStore : Store :=
  [⟨[⟨2, 2⟩, ⟨3, 3⟩], none⟩,
   ⟨[⟨0, 2⟩, ⟨1, 3⟩], none⟩,
   ⟨[⟨6, 4⟩], none⟩,
   ⟨[⟨4, 4⟩, ⟨5, 5⟩], none⟩,
   ⟨[], none⟩,
   ⟨[], none⟩]

/-- The row layout of the source's `it_works` test graph. -/
def testInput : Input := [[0, 1], [2, 3], [4, 5]]

/-! ### Claim C8 -/

/-- C8: on the concrete three-row input
`row0 = [A(edges: B w2, C w3), D(edges: B w0, C w1)]`,
`row1 = [B(edges: E w6), C(edges: E w4, F w5)]`, `row2 = [E, F]`,
`min_path_cost` returns `Some 5`. -/
theorem C8_three_row_example :
    min_path_cost_result testInput testStore = .ok (some 5) := rfl

/-! ### Claim C4 -/

theorem processRow_zero_zero :
    ∀ (ids : List Nat) (s : Store) (acc : Option Nat),
    (∀ i ∈ ids, (getNode s i).maybe_min_path = none) →
    processRow 0 0 ids s acc = .ok (s, acc) := by
  intro ids
  induction ids with
  | nil => intro s acc _; rfl
  | cons i ids ih =>
    intro s acc h
    rw [processRow]
    have hpn : processNode s acc 0 0 i = .ok (s, acc) := by
      unfold processNode
      rw [if_neg (by simp), if_pos rfl, h i (by simp)]
    rw [hpn]
    exact ih s acc fun i' hi' => h i' (by simp [hi'])

theorem min_path_cost_single_row (r : List Nat) (s : Store)
    (h : ∀ i ∈ r, (getNode s i).maybe_min_path = none) :
    min_path_cost [r] s = .ok (none, s) := by
  unfold min_path_cost
  rw [show ([r] : Input).length - 1 = 0 from rfl, runRows,
    processRow_zero_zero r s none h]
  rfl

/-- C4: on an input consisting of a single row all of whose nodes have
`min_path` absent, `min_path_cost` returns `None`, whatever the number of
nodes in the row. -/
theorem C4_single_row_returns_none (r : List Nat) (s : Store)
    (h : ∀ i ∈ r, (getNode s i).maybe_min_path = none) :
    min_path_cost_result [r] s = .ok none := by
  unfold min_path_cost_result
  rw [min_path_cost_single_row r s h]

/-- Witness for C4 at a one-node default row. -/
theorem C4_single_row_returns_none_witness :
    (∀ i ∈ [0], (getNode [(⟨[], none⟩ : Node)] i).maybe_min_path = none) ∧
    min_path_cost_result [[0]] [(⟨[], none⟩ : Node)] = .ok none :=
  ⟨by decide, C4_single_row_returns_none [0] [⟨[], none⟩] (by decide)⟩

/-! ### Claim C10 -/

/-- C10: whenever the terminal row is empty (and there are at least two
rows), a completed run of `min_path_cost` returns `None`: the terminal fold
ranges over no nodes, so the global minimum is never installed. -/
theorem C10_empty_terminal_row_returns_none (input : Input) (s : Store)
    (h2 : 2 ≤ input.length) (hlast : input.getLast? = some [])
    (r : Option Nat) (s' : Store)
    (hok : min_path_cost input s = .ok (r, s')) : r = none := by
  unfold min_path_cost at hok
  cases hrun : runRows (input.length - 1) input 0 s none with
  | error e => rw [hrun] at hok; cases hok
  | ok p =>
    obtain ⟨s1, acc1⟩ := p
    rw [hrun] at hok
    cases hok
    refine runRows_acc input 0 s none _ _ ?_ hrun
    intro j hj hjl
    have hj' : j = input.length - 1 := by omega
    subst hj'
    rw [List.getD_eq_getElem?_getD, ← List.getLast?_eq_getElem?, hlast]
    rfl

/-- Witness for C10 on a two-row graph with an empty terminal row. -/
theorem C10_empty_terminal_row_witness :
    2 ≤ ([[0], []] : Input).length ∧
    ([[0], []] : Input).getLast? = some [] ∧
    (none : Option Nat) = none :=
  ⟨by decide, rfl,
    C10_empty_terminal_row_returns_none [[0], []] [⟨[], none⟩] (by decide) rfl
      none [⟨[], none⟩] rfl⟩

/-! ### Claim C2 -/

/-- C2 (amended): `min_path_cost` runs to completion without panicking on
every input, well-formed or not, in which no node carries an edge to
itself.  (With a self-edge the `RefCell` is borrowed mutably while the edge
destination is borrowed again, and the solver panics: see the
counterexample.) -/
theorem C2_total_without_self_loops (input : Input) (s : Store)
    (h : NoSelfLoops s) : ∃ p, min_path_cost input s = .ok p := by
  obtain ⟨p, hp⟩ := runRows_isOk input 0 s none h
  obtain ⟨s1, acc1⟩ := p
  unfold min_path_cost
  rw [hp]
  exact ⟨(acc1, s1), rfl⟩

/-- C2 counterexample: on the malformed two-row input whose single row-0
node has an edge to itself, `min_path_cost` panics (the model's `.error ()`)
instead of running to completion. -/
theorem C2_self_loop_panics :
    min_path_cost [[0], [1]] [⟨[⟨1, 0⟩], none⟩, ⟨[], none⟩] = .error () := rfl

/-- Witness for C2 on a malformed input (row indices out of order are fine;
only self-edges can panic). -/
theorem C2_total_without_self_loops_witness :
    NoSelfLoops [⟨[⟨1, 1⟩], none⟩, ⟨[], none⟩] ∧
    ∃ p, min_path_cost [[0, 1], [1, 0]] [⟨[⟨1, 1⟩], none⟩, ⟨[], none⟩] = .ok p :=
  ⟨by decide, C2_total_without_self_loops _ _ (by decide)⟩

/-! ### Claim C9 -/

/-- C9: when the candidate cost is computed for a node of a non-zero row
that passed the pruning check (so it was not skipped), the node's
`min_path` is present and every one of its edges yields a candidate: the
`continue` fallback for an absent source `min_path` is unreachable.  The
node value `nd` is the single read of the node under the held borrow, so
the value checked by the pruning test is the value used per edge. -/
theorem C9_fallback_unreachable (rowIdx : Nat) (nd : Node)
    (hrow : rowIdx ≠ 0)
    (hvisit : ¬(rowIdx ≠ 0 ∧ nd.maybe_min_path = none)) :
    ∃ m, nd.maybe_min_path = some m ∧
      ∀ e ∈ nd.edges, weightToDest rowIdx nd e = some ((e.weight + m) % U) := by
  cases hm : nd.maybe_min_path with
  | none => exact absurd ⟨hrow, hm⟩ hvisit
  | some m =>
    refine ⟨m, rfl, fun e _ => ?_⟩
    unfold weightToDest
    rw [if_neg hrow, hm]

/-- Witness for C9 at a concrete reachable node in row 1. -/
theorem C9_fallback_unreachable_witness :
    (1 : Nat) ≠ 0 ∧
    ¬((1 : Nat) ≠ 0 ∧ (Node.mk [⟨2, 5⟩] (some 7)).maybe_min_path = none) ∧
    ∃ m, (Node.mk [⟨2, 5⟩] (some 7)).maybe_min_path = some m ∧
      ∀ e ∈ (Node.mk [⟨2, 5⟩] (some 7)).edges,
        weightToDest 1 (Node.mk [⟨2, 5⟩] (some 7)) e = some ((e.weight + m) % U) :=
  ⟨by decide, by decide,
    C9_fallback_unreachable 1 (Node.mk [⟨2, 5⟩] (some 7)) (by decide) (by decide)⟩

/-! ### Claim C3 -/

/-- C3: a relaxation sets an absent destination `min_path` to the
candidate, lowers it when the candidate is strictly smaller, and leaves the
whole store untouched otherwise (in particular an equal candidate does not
overwrite); consequently, across a completed solve, every node's
`min_path` is only ever introduced or lowered — never raised and never
cleared (`minPathLEb new old` with `none` as plus infinity). -/
theorem C3_relaxation_monotone (s : Store) (w dest : Nat) (hdest : dest < s.length) :
    ((getNode s dest).maybe_min_path = none →
      (getNode (relaxEdge s w dest) dest).maybe_min_path = some w) ∧
    (∀ d, (getNode s dest).maybe_min_path = some d → w < d →
      (getNode (relaxEdge s w dest) dest).maybe_min_path = some w) ∧
    (∀ d, (getNode s dest).maybe_min_path = some d → ¬w < d →
      relaxEdge s w dest = s) ∧
    (∀ (input : Input) (s0 : Store) (r : Option Nat) (s1 : Store),
      min_path_cost input s0 = .ok (r, s1) →
      ∀ j, minPathLEb (getNode s1 j).maybe_min_path
        (getNode s0 j).maybe_min_path = true) := by
  refine ⟨?_, ?_, ?_, ?_⟩
  · intro hnone
    unfold relaxEdge
    rw [hnone, getNode_setMinPath_self hdest]
  · intro d hd hw
    unfold relaxEdge
    rw [hd]
    show (getNode (if w < d then setMinPath s dest w else s) dest).maybe_min_path = some w
    rw [if_pos hw, getNode_setMinPath_self hdest]
  · intro d hd hw
    unfold relaxEdge
    rw [hd]
    show (if w < d then setMinPath s dest w else s) = s
    rw [if_neg hw]
  · intro input s0 r s1 hrun j
    unfold min_path_cost at hrun
    cases hr : runRows (input.length - 1) input 0 s0 none with
    | error e => rw [hr] at hrun; cases hrun
    | ok p =>
      obtain ⟨s2, acc2⟩ := p
      rw [hr] at hrun
      cases hrun
      exact runRows_mono input 0 s0 none _ _ hr j

/-- Witness for C3: a fresh destination is set to the candidate. -/
theorem C3_relaxation_monotone_witness :
    (1 : Nat) < ([⟨[], none⟩, ⟨[], none⟩] : Store).length ∧
    (getNode ([⟨[], none⟩, ⟨[], none⟩] : Store) 1).maybe_min_path = none ∧
    (getNode (relaxEdge [⟨[], none⟩, ⟨[], none⟩] 3 1) 1).maybe_min_path = some 3 :=
  ⟨by decide, rfl,
    (C3_relaxation_monotone [⟨[], none⟩, ⟨[], none⟩] 3 1 (by decide)).1 rfl⟩

/-! ### Membership characterizations for walks and candidates -/

theorem mem_filterMap_toj {l : List (Nat × Nat)} {j y : Nat} :
    y ∈ l.filterMap (fun wd => if wd.2 = j then some wd.1 else none) ↔ (y, j) ∈ l := by
  rw [List.mem_filterMap]
  constructor
  · rintro ⟨wd, hwd, hif⟩
    by_cases h : wd.2 = j
    · rw [if_pos h] at hif
      cases hif
      have hwj : wd = (wd.1, j) := by
        rw [← h]
      exact hwj ▸ hwd
    · rw [if_neg h] at hif
      cases hif
  · intro h
    exact ⟨(y, j), h, by rw [if_pos rfl]⟩

theorem mem_nodeCands_iff {k : Nat} {nd : Node} {y j : Nat} :
    (y, j) ∈ nodeCands k nd ↔
    ∃ e ∈ nd.edges, e.destination = j ∧ weightToDest k nd e = some y := by
  rw [nodeCands, List.mem_filterMap]
  constructor
  · rintro ⟨e, he, hmap⟩
    obtain ⟨w, hw, heq⟩ := Option.map_eq_some'.mp hmap
    obtain ⟨h1, h2⟩ := Prod.mk.injEq .. ▸ heq
    exact ⟨e, he, h2, by rw [hw, h1]⟩
  · rintro ⟨e, he, hdj, hw⟩
    refine ⟨e, he, ?_⟩
    rw [hw, Option.map_some', hdj]

theorem mem_walksFrom_succ {s : Store} {k i0 : Nat} {cw : Nat × Nat} :
    cw ∈ walksFrom s (k + 1) i0 ↔
    ∃ cw' ∈ walksFrom s k i0, ∃ e ∈ (getNode s cw'.2).edges,
      cw = (cw'.1 + e.weight, e.destination) := by
  rw [walksFrom_succ, mem_concatMap]
  constructor
  · rintro ⟨cw', hcw', hmem⟩
    obtain ⟨e, he, heq⟩ := List.mem_map.mp hmem
    exact ⟨cw', hcw', e, he, heq.symm⟩
  · rintro ⟨cw', hcw', e, he, rfl⟩
    exact ⟨cw', hcw', List.mem_map.mpr ⟨e, he, rfl⟩⟩

theorem walksFrom_endpoint {input : Input} {s : Store} (hws : WellStructured input s) :
    ∀ t, t < input.length → ∀ i0 ∈ row input 0, ∀ cw ∈ walksFrom s t i0,
      cw.2 ∈ row input t := by
  intro t
  induction t with
  | zero =>
    intro _ i0 hi0 cw hcw
    rw [show walksFrom s 0 i0 = [(0, i0)] from rfl] at hcw
    rw [List.mem_singleton] at hcw
    rw [hcw]
    exact hi0
  | succ t ih =>
    intro ht i0 hi0 cw hcw
    obtain ⟨cw', hcw', e, he, rfl⟩ := mem_walksFrom_succ.mp hcw
    have hend : cw'.2 ∈ row input t := ih (by omega) i0 hi0 cw' hcw'
    exact hws.2.1 t (by omega) cw'.2 hend e he

theorem costTo_zero {s : Store} {row0 : List Nat} {i : Nat} (h : i ∈ row0) :
    costTo s row0 0 i = some 0 := by
  have hmem : (0 : Nat) ∈ (concatMap (walksFrom s 0) row0).filterMap
      fun cw => if cw.2 = i then some cw.1 else none := by
    rw [mem_filterMap_toj, mem_concatMap]
    exact ⟨i, h, by rw [show walksFrom s 0 i = [(0, i)] from rfl]; simp⟩
  obtain ⟨m, hm, hle⟩ := le_listMin_of_mem hmem
  rw [costTo, hm, Nat.le_zero.mp hle]

theorem costTo_mem {s : Store} {row0 : List Nat} {t j m : Nat}
    (h : costTo s row0 t j = some m) :
    ∃ i0 ∈ row0, (m, j) ∈ walksFrom s t i0 := by
  rw [costTo] at h
  have hmem := listMin_mem h
  rw [mem_filterMap_toj, mem_concatMap] at hmem
  exact hmem

theorem costTo_le {s : Store} {row0 : List Nat} {t i0 : Nat} {cw : Nat × Nat}
    (h0 : i0 ∈ row0) (hw : cw ∈ walksFrom s t i0) :
    ∃ m, costTo s row0 t cw.2 = some m ∧ m ≤ cw.1 := by
  have hmem : cw.1 ∈ (concatMap (walksFrom s t) row0).filterMap
      fun cw' => if cw'.2 = cw.2 then some cw'.1 else none := by
    rw [mem_filterMap_toj, mem_concatMap]
    exact ⟨i0, h0, hw⟩
  obtain ⟨m, hm, hle⟩ := le_listMin_of_mem hmem
  exact ⟨m, by rw [costTo, hm], hle⟩

/-! ### The exchange lemma: a row's candidate minimum is the next row's
least walk cost -/

theorem rowCands_min_eq_costTo {input : Input} {s : Store} {k : Nat}
    (hws : WellStructured input s) (hb : BoundedCosts input s)
    (hk : k < input.length - 1)
    (hsrc : ∀ i ∈ row input k,
      (if k = 0 then some 0 else (getNode s i).maybe_min_path)
        = costTo s (row input 0) k i) (j : Nat) :
    listMin ((rowCands k s (row input k)).filterMap
      fun wd => if wd.2 = j then some wd.1 else none)
      = costTo s (row input 0) (k + 1) j := by
  rw [costTo]
  apply listMin_congr
  · -- every emitted candidate is dominated by a genuine walk cost
    intro y hy
    rw [mem_filterMap_toj, rowCands, mem_concatMap] at hy
    obtain ⟨i, hi, hyc⟩ := hy
    obtain ⟨e, he, hdj, hw⟩ := mem_nodeCands_iff.mp hyc
    by_cases hk0 : k = 0
    · subst hk0
      have hy' : y = e.weight := by
        unfold weightToDest at hw
        rw [if_pos rfl] at hw
        cases hw
        rfl
      have hwmem : ((0 : Nat) + e.weight, e.destination) ∈ walksFrom s 1 i :=
        mem_walksFrom_succ.mpr
          ⟨(0, i), by rw [show walksFrom s 0 i = [(0, i)] from rfl]; simp, e, he, rfl⟩
      refine ⟨0 + e.weight, ?_, by omega⟩
      rw [mem_filterMap_toj, mem_concatMap]
      exact ⟨i, hi, by rw [← hdj]; exact hwmem⟩
    · have hm : ∃ m, (getNode s i).maybe_min_path = some m ∧ y = (e.weight + m) % U := by
        unfold weightToDest at hw
        rw [if_neg hk0] at hw
        cases hmp : (getNode s i).maybe_min_path with
        | none => rw [hmp] at hw; cases hw
        | some m =>
          rw [hmp] at hw
          cases hw
          exact ⟨m, rfl, rfl⟩
      obtain ⟨m, hmp, hy'⟩ := hm
      have hct : costTo s (row input 0) k i = some m := by
        have hs := hsrc i hi
        rw [if_neg hk0, hmp] at hs
        exact hs.symm
      obtain ⟨i0, hi0, hwalk⟩ := costTo_mem hct
      have hext : (m + e.weight, e.destination) ∈ walksFrom s (k + 1) i0 :=
        mem_walksFrom_succ.mpr ⟨(m, i), hwalk, e, he, rfl⟩
      have hlt : m + e.weight < usizeMAX := hb (k + 1) (by omega) i0 hi0 _ hext
      have hyeq : y = e.weight + m := by
        rw [hy']
        apply Nat.mod_eq_of_lt
        have hUM : usizeMAX < U := by unfold usizeMAX U; omega
        omega
      refine ⟨m + e.weight, ?_, by omega⟩
      rw [mem_filterMap_toj, mem_concatMap]
      exact ⟨i0, hi0, by rw [← hdj]; exact hext⟩
  · -- every walk cost is dominated by an emitted candidate
    intro x hx
    rw [mem_filterMap_toj, mem_concatMap] at hx
    obtain ⟨i0, hi0, hxw⟩ := hx
    obtain ⟨cw', hcw', e, he, heq⟩ := mem_walksFrom_succ.mp hxw
    obtain ⟨hx1, hj1⟩ := Prod.mk.injEq .. ▸ heq
    have hiend : cw'.2 ∈ row input k :=
      walksFrom_endpoint hws k (by omega) i0 hi0 cw' hcw'
    obtain ⟨m, hm, hmle⟩ := costTo_le hi0 hcw'
    have hsv := hsrc cw'.2 hiend
    by_cases hk0 : k = 0
    · have hm0 : m = 0 := by
        rw [if_pos hk0, hm] at hsv
        cases hsv
        rfl
      refine ⟨e.weight, ?_, by omega⟩
      rw [mem_filterMap_toj, rowCands, mem_concatMap]
      refine ⟨cw'.2, hiend, mem_nodeCands_iff.mpr ⟨e, he, hj1.symm, ?_⟩⟩
      unfold weightToDest
      rw [if_pos hk0]
    · have hmp : (getNode s cw'.2).maybe_min_path = some m := by
        rw [if_neg hk0] at hsv
        rw [hsv, hm]
      refine ⟨(e.weight + m) % U, ?_, ?_⟩
      · rw [mem_filterMap_toj, rowCands, mem_concatMap]
        refine ⟨cw'.2, hiend, mem_nodeCands_iff.mpr ⟨e, he, hj1.symm, ?_⟩⟩
        unfold weightToDest
        rw [if_neg hk0, hmp]
      · have h1 : (e.weight + m) % U ≤ e.weight + m := Nat.mod_le _ _
        omega

/-! ### One relaxation step of the sweep -/

theorem step_relax {input : Input} {s : Store} {k : Nat} {acc : Option Nat}
    (hws : WellStructured input s) (hb : BoundedCosts input s)
    (hk : k < input.length - 1)
    (hsrc : ∀ i ∈ row input k,
      (if k = 0 then some 0 else (getNode s i).maybe_min_path)
        = costTo s (row input 0) k i) :
    processRow k (input.length - 1) (row input k) s acc
      = .ok (applyCands s (rowCands k s (row input k)), acc) ∧
    ∀ j, (getNode (applyCands s (rowCands k s (row input k))) j).maybe_min_path
      = optMin (getNode s j).maybe_min_path (costTo s (row input 0) (k + 1) j) := by
  have hstable : ∀ i ∈ row input k, ∀ e ∈ (getNode s i).edges,
      e.destination ∉ row input k := by
    intro i hi e he hmem
    have hdest : e.destination ∈ row input (k + 1) := hws.2.1 k hk i hi e he
    have := hws.2.2.1 k (by omega) (k + 1) (by omega) e.destination hmem hdest
    omega
  constructor
  · exact processRow_relax (by omega) _ s acc hstable
  · intro j
    have hrange : ∀ wd ∈ rowCands k s (row input k), wd.2 < s.length := by
      intro wd hwd
      rw [rowCands, mem_concatMap] at hwd
      obtain ⟨i, hi, hin⟩ := hwd
      obtain ⟨e, he, hd⟩ := mem_nodeCands_dest hin
      have hdest : e.destination ∈ row input (k + 1) := hws.2.1 k hk i hi e he
      rw [hd]
      exact hws.2.2.2 (k + 1) (by omega) e.destination hdest
    rw [minp_applyCands hrange j, rowCands_min_eq_costTo hws hb hk hsrc j]

/-! ### Transfers across stores with identical edge structure -/

theorem wellStructured_transfer {input : Input} {s s' : Store}
    (hl : s'.length = s.length)
    (he : ∀ j, (getNode s' j).edges = (getNode s j).edges)
    (h : WellStructured input s) : WellStructured input s' := by
  obtain ⟨h1, h2, h3, h4⟩ := h
  refine ⟨h1, ?_, h3, ?_⟩
  · intro t ht i hi e hei
    rw [he i] at hei
    exact h2 t ht i hi e hei
  · intro t ht i hi
    rw [hl]
    exact h4 t ht i hi

theorem boundedCosts_transfer {input : Input} {s s' : Store}
    (he : ∀ j, (getNode s' j).edges = (getNode s j).edges)
    (h : BoundedCosts input s) : BoundedCosts input s' := by
  intro t ht i hi cw hcw
  rw [walksFrom_congr he] at hcw
  exact h t ht i hi cw hcw

theorem costTo_congr {s s' : Store}
    (he : ∀ j, (getNode s' j).edges = (getNode s j).edges)
    (row0 : List Nat) (t j : Nat) :
    costTo s' row0 t j = costTo s row0 t j := by
  rw [costTo, costTo]
  have : concatMap (walksFrom s' t) row0 = concatMap (walksFrom s t) row0 :=
    concatMap_congr fun i _ => walksFrom_congr he t i
  rw [this]

theorem costTo_none_of_not_mem {input : Input} {s : Store}
    (hws : WellStructured input s) {t j : Nat}
    (ht : t < input.length) (hj : j ∉ row input t) :
    costTo s (row input 0) t j = none := by
  cases hc : costTo s (row input 0) t j with
  | none => rfl
  | some m =>
    obtain ⟨i0, hi0, hw⟩ := costTo_mem hc
    exact absurd (walksFrom_endpoint hws t ht i0 hi0 (m, j) hw) hj

/-! ### Folding the terminal row -/

theorem processRow_terminal {lastRow : Nat} (hl0 : lastRow ≠ 0) :
    ∀ (ids : List Nat) (s : Store) (acc : Option Nat),
    processRow lastRow lastRow ids s acc
      = .ok (s, ids.foldl (fun a j =>
          match (getNode s j).maybe_min_path with
          | some m => if a.getD usizeMAX > m then some m else a
          | none => a) acc) := by
  intro ids
  induction ids with
  | nil => intro s acc; rfl
  | cons i ids ih =>
    intro s acc
    rw [processRow]
    cases hm : (getNode s i).maybe_min_path with
    | none =>
      have hpn : processNode s acc lastRow lastRow i = .ok (s, acc) := by
        unfold processNode
        rw [if_pos ⟨hl0, hm⟩]
      rw [hpn]
      show processRow lastRow lastRow ids s acc = _
      rw [ih s acc, List.foldl_cons, hm]
    | some m =>
      have hpn : processNode s acc lastRow lastRow i
          = .ok (s, if acc.getD usizeMAX > m then some m else acc) := by
        unfold processNode
        rw [if_neg (by simp [hm]), if_pos rfl, hm]
        show (if acc.getD usizeMAX > m then Except.ok (s, some m) else Except.ok (s, acc)) = _
        by_cases hacc : acc.getD usizeMAX > m
        · rw [if_pos hacc, if_pos hacc]
        · rw [if_neg hacc, if_neg hacc]
      rw [hpn]
      show processRow lastRow lastRow ids s _ = _
      rw [ih s _, List.foldl_cons, hm]

theorem terminal_fold_eq {s : Store} :
    ∀ (ids : List Nat) (acc : Option Nat),
    (∀ j ∈ ids, ∀ m, (getNode s j).maybe_min_path = some m → m < usizeMAX) →
    ids.foldl (fun a j =>
        match (getNode s j).maybe_min_path with
        | some m => if a.getD usizeMAX > m then some m else a
        | none => a) acc
      = optMin acc (listMin (ids.filterMap fun j => (getNode s j).maybe_min_path)) := by
  intro ids
  induction ids with
  | nil =>
    intro acc _
    rw [List.foldl_nil, List.filterMap_nil]
    show acc = optMin acc none
    rw [optMin_none_right]
  | cons i ids ih =>
    intro acc h
    rw [List.foldl_cons, List.filterMap_cons]
    cases hm : (getNode s i).maybe_min_path with
    | none =>
      rw [ih acc fun j hj => h j (by simp [hj])]
    | some m =>
      have hstep : (if acc.getD usizeMAX > m then some m else acc) = optMin acc (some m) := by
        cases acc with
        | none =>
          rw [if_pos]
          · rfl
          · show m < (none : Option Nat).getD usizeMAX
            exact h i (by simp) m hm
        | some a =>
          show (if a > m then some m else some a) = some (min a m)
          by_cases hacc : a > m
          · rw [if_pos hacc, min_eq_right (Nat.le_of_lt hacc)]
          · rw [if_neg hacc, min_eq_left (Nat.le_of_not_lt hacc)]
      rw [ih _ fun j hj => h j (by simp [hj])]
      show optMin (if acc.getD usizeMAX > m then some m else acc)
          (listMin (List.filterMap (fun j => (getNode s j).maybe_min_path) ids))
        = optMin acc (listMin (m :: List.filterMap (fun j => (getNode s j).maybe_min_path) ids))
      rw [hstep, listMin_cons, optMin_assoc]

theorem terminal_listMin_eq {input : Input} {s : Store}
    (hws : WellStructured input s)
    (hL1 : 1 ≤ input.length - 1)
    (hvals : ∀ j ∈ row input (input.length - 1),
      (getNode s j).maybe_min_path = costTo s (row input 0) (input.length - 1) j) :
    listMin ((row input (input.length - 1)).filterMap
        fun j => (getNode s j).maybe_min_path)
      = listMin ((concatMap (walksFrom s (input.length - 1)) (row input 0)).map Prod.fst) := by
  rw [List.filterMap_congr hvals]
  apply listMin_congr
  · intro x hxl
    obtain ⟨j, hj, hc⟩ := List.mem_filterMap.mp hxl
    obtain ⟨i0, hi0, hw⟩ := costTo_mem hc
    exact ⟨x, List.mem_map.mpr ⟨(x, j), mem_concatMap.mpr ⟨i0, hi0, hw⟩, rfl⟩, le_refl x⟩
  · intro c hc
    obtain ⟨cw, hcwmem, hcw1⟩ := List.mem_map.mp hc
    obtain ⟨i0, hi0, hw⟩ := mem_concatMap.mp hcwmem
    have hend : cw.2 ∈ row input (input.length - 1) :=
      walksFrom_endpoint hws _ (by omega) i0 hi0 cw hw
    obtain ⟨m, hm, hmle⟩ := costTo_le hi0 hw
    exact ⟨m, List.mem_filterMap.mpr ⟨cw.2, hend, hm⟩, by omega⟩

/-! ### The sweep invariant -/

/-- State of the arena when the sweep is about to process row `k`: every
node of a row `t ≥ 1` either already carries the least `t`-walk cost from
row 0 (always so for `t ≤ k`), or is still unset. -/
def StateHyp (input : Input) (k : Nat) (s : Store) : Prop :=
  ∀ t, 1 ≤ t → t < input.length → ∀ j ∈ row input t,
    (getNode s j).maybe_min_path = costTo s (row input 0) t j ∨
    (k < t ∧ (getNode s j).maybe_min_path = none)

theorem runRows_spec {input : Input} :
    ∀ (n k : Nat) (s : Store),
    input.length - 1 - k = n →
    WellStructured input s → BoundedCosts input s →
    k ≤ input.length - 1 → 1 ≤ input.length - 1 →
    StateHyp input k s →
    ∃ s',
      runRows (input.length - 1) (input.drop k) k s none
        = .ok (s', listMin ((concatMap (walksFrom s (input.length - 1))
            (row input 0)).map Prod.fst)) ∧
      (∀ t, 1 ≤ t → t < input.length → ∀ j ∈ row input t,
        (getNode s' j).maybe_min_path = costTo s (row input 0) t j) ∧
      (∀ j, (∀ t, 1 ≤ t → t < input.length → j ∉ row input t) →
        getNode s' j = getNode s j) := by
  intro n
  induction n with
  | zero =>
    intro k s hn hws hb hk hL1 hstate
    have hkL : k = input.length - 1 := by omega
    subst hkL
    have hlen : input.length - 1 < input.length := by omega
    have hdrop : input.drop (input.length - 1) = [row input (input.length - 1)] := by
      rw [List.drop_eq_getElem_cons hlen, List.drop_eq_nil_of_le (by omega)]
      congr 1
      rw [row, List.getD_eq_getElem?_getD, List.getElem?_eq_getElem hlen]
      rfl
    have hvals : ∀ j ∈ row input (input.length - 1),
        (getNode s j).maybe_min_path
          = costTo s (row input 0) (input.length - 1) j := by
      intro j hj
      rcases hstate (input.length - 1) (by omega) hlen j hj with h | h
      · exact h
      · omega
    have hbound : ∀ j ∈ row input (input.length - 1), ∀ m,
        (getNode s j).maybe_min_path = some m → m < usizeMAX := by
      intro j hj m hm
      rw [hvals j hj] at hm
      obtain ⟨i0, hi0, hw⟩ := costTo_mem hm
      exact hb (input.length - 1) hlen i0 hi0 (m, j) hw
    refine ⟨s, ?_, ?_, fun j _ => rfl⟩
    · rw [hdrop, runRows,
        processRow_terminal (by omega) (row input (input.length - 1)) s none]
      show Except.ok (s, (row input (input.length - 1)).foldl (fun a j =>
          match (getNode s j).maybe_min_path with
          | some m => if a.getD usizeMAX > m then some m else a
          | none => a) none) = _
      rw [terminal_fold_eq (row input (input.length - 1)) none hbound]
      show Except.ok (s, listMin ((row input (input.length - 1)).filterMap
          fun j => (getNode s j).maybe_min_path)) = _
      rw [terminal_listMin_eq hws hL1 hvals]
    · intro t ht1 ht2 j hj
      rcases hstate t ht1 ht2 j hj with h | h
      · exact h
      · omega
  | succ n ihn =>
    intro k s hn hws hb hk hL1 hstate
    have hkL : k < input.length - 1 := by omega
    have hsrc : ∀ i ∈ row input k,
        (if k = 0 then some 0 else (getNode s i).maybe_min_path)
          = costTo s (row input 0) k i := by
      intro i hi
      by_cases hk0 : k = 0
      · subst hk0
        rw [if_pos rfl, costTo_zero hi]
      · rw [if_neg hk0]
        rcases hstate k (by omega) (by omega) i hi with h | h
        · exact h
        · omega
    obtain ⟨hpr, hminp⟩ := @step_relax input s k none hws hb hkL hsrc
    have hedges : ∀ j,
        (getNode (applyCands s (rowCands k s (row input k))) j).edges
          = (getNode s j).edges := edges_applyCands s _
    have hlen1 : (applyCands s (rowCands k s (row input k))).length = s.length :=
      length_applyCands s _
    have hws1 := wellStructured_transfer hlen1 hedges hws
    have hb1 := boundedCosts_transfer hedges hb
    have hct1 : ∀ t j, costTo (applyCands s (rowCands k s (row input k)))
        (row input 0) t j = costTo s (row input 0) t j :=
      fun t j => costTo_congr hedges _ t j
    have hstate1 : StateHyp input (k + 1) (applyCands s (rowCands k s (row input k))) := by
      intro t ht1 ht2 j hj
      rw [hct1 t j, hminp j]
      by_cases htk : t = k + 1
      · subst htk
        left
        rcases hstate (k + 1) ht1 ht2 j hj with h | h
        · rw [h]
          cases hc : costTo s (row input 0) (k + 1) j with
          | none => rfl
          | some a => simp [optMin]
        · rw [h.2]
          rfl
      · have hnone : costTo s (row input 0) (k + 1) j = none := by
          apply costTo_none_of_not_mem hws (by omega)
          intro hjk1
          exact htk (hws.2.2.1 t ht2 (k + 1) (by omega) j hj hjk1)
        rw [hnone, optMin_none_right]
        rcases hstate t ht1 ht2 j hj with h | h
        · left
          exact h
        · right
          exact ⟨by omega, h.2⟩
    obtain ⟨s', hrun', hfinal', huntouched'⟩ :=
      ihn (k + 1) _ (by omega) hws1 hb1 (by omega) hL1 hstate1
    refine ⟨s', ?_, ?_, ?_⟩
    · have hdrop : input.drop k = row input k :: input.drop (k + 1) := by
        rw [List.drop_eq_getElem_cons (show k < input.length by omega)]
        congr 1
        rw [row, List.getD_eq_getElem?_getD,
          List.getElem?_eq_getElem (show k < input.length by omega)]
        rfl
      rw [hdrop, runRows, hpr]
      show runRows (input.length - 1) (input.drop (k + 1)) (k + 1) _ none = _
      rw [hrun']
      have hwalks : concatMap (walksFrom (applyCands s (rowCands k s (row input k)))
            (input.length - 1)) (row input 0)
          = concatMap (walksFrom s (input.length - 1)) (row input 0) :=
        concatMap_congr fun i _ => walksFrom_congr hedges _ i
      rw [hwalks]
    · intro t ht1 ht2 j hj
      rw [hfinal' t ht1 ht2 j hj, hct1 t j]
    · intro j hjall
      rw [huntouched' j hjall]
      apply getNode_applyCands_ne
      intro wd hwd hwj
      rw [rowCands, mem_concatMap] at hwd
      obtain ⟨i, hi, hin⟩ := hwd
      obtain ⟨e, he, hd⟩ := mem_nodeCands_dest hin
      have hdest : e.destination ∈ row input (k + 1) := hws.2.1 k hkL i hi e he
      exact hjall (k + 1) (by omega) (by omega) (by rw [← hwj, hd]; exact hdest)

/-! ### Composition and extensionality helpers -/

theorem headD_eq_row_zero (input : Input) : input.headD [] = row input 0 := by
  cases input <;> rfl

theorem getNode_lt {s : Store} {n : Nat} (h : n < s.length) : getNode s n = s[n] := by
  unfold getNode
  rw [List.getD_eq_getElem?_getD, List.getElem?_eq_getElem h]
  rfl

theorem node_ext {a b : Node} (he : a.edges = b.edges)
    (hm : a.maybe_min_path = b.maybe_min_path) : a = b := by
  cases a
  cases b
  simp at he hm
  rw [he, hm]

theorem store_ext {s1 s2 : Store} (hl : s1.length = s2.length)
    (h : ∀ j, getNode s1 j = getNode s2 j) : s1 = s2 := by
  apply List.ext_getElem?
  intro n
  by_cases hn : n < s1.length
  · rw [List.getElem?_eq_getElem hn, List.getElem?_eq_getElem (hl ▸ hn)]
    rw [← getNode_lt hn, ← getNode_lt (hl ▸ hn), h n]
  · rw [List.getElem?_eq_none (by omega), List.getElem?_eq_none (by omega)]

theorem runRows_append {lastRow : Nat} :
    ∀ (l1 l2 : List (List Nat)) (k : Nat) (s : Store) (acc : Option Nat),
    runRows lastRow (l1 ++ l2) k s acc =
      match runRows lastRow l1 k s acc with
      | .error e => .error e
      | .ok (s1, a1) => runRows lastRow l2 (k + l1.length) s1 a1 := by
  intro l1
  induction l1 with
  | nil =>
    intro l2 k s acc
    rfl
  | cons rrow rest ih =>
    intro l2 k s acc
    show runRows lastRow (rrow :: (rest ++ l2)) k s acc = _
    rw [runRows, runRows]
    cases hpr : processRow k lastRow rrow s acc with
    | error e => rfl
    | ok p =>
      obtain ⟨s1, a1⟩ := p
      show runRows lastRow (rest ++ l2) (k + 1) s1 a1
        = match runRows lastRow rest (k + 1) s1 a1 with
          | .error e => .error e
          | .ok (s2, a2) => runRows lastRow l2 (k + (rrow :: rest).length) s2 a2
      rw [ih l2 (k + 1) s1 a1]
      have h2 : k + 1 + rest.length = k + (rrow :: rest).length := by
        simp
        omega
      rw [h2]

theorem processRow_store_at_last {lastRow : Nat} :
    ∀ (ids : List Nat) (s : Store) (acc : Option Nat),
    ∃ acc', processRow lastRow lastRow ids s acc = .ok (s, acc') := by
  intro ids
  induction ids with
  | nil => intro s acc; exact ⟨acc, rfl⟩
  | cons i ids ih =>
    intro s acc
    by_cases hskip : lastRow ≠ 0 ∧ (getNode s i).maybe_min_path = none
    · have hpn : processNode s acc lastRow lastRow i = .ok (s, acc) := by
        unfold processNode
        rw [if_pos hskip]
      obtain ⟨acc', hacc'⟩ := ih s acc
      refine ⟨acc', ?_⟩
      rw [processRow, hpn]
      exact hacc'
    · cases hm : (getNode s i).maybe_min_path with
      | none =>
        have hl0 : lastRow = 0 := by
          by_contra hl
          exact hskip ⟨hl, hm⟩
        have hpn : processNode s acc lastRow lastRow i = .ok (s, acc) := by
          unfold processNode
          rw [if_neg hskip, if_pos rfl, hm]
        obtain ⟨acc', hacc'⟩ := ih s acc
        refine ⟨acc', ?_⟩
        rw [processRow, hpn]
        exact hacc'
      | some m =>
        have hpn : processNode s acc lastRow lastRow i
            = .ok (s, if acc.getD usizeMAX > m then some m else acc) := by
          unfold processNode
          rw [if_neg hskip, if_pos rfl, hm]
          show (if acc.getD usizeMAX > m then Except.ok (s, some m)
            else Except.ok (s, acc)) = _
          by_cases hacc : acc.getD usizeMAX > m
          · rw [if_pos hacc, if_pos hacc]
          · rw [if_neg hacc, if_neg hacc]
        obtain ⟨acc', hacc'⟩ := ih s (if acc.getD usizeMAX > m then some m else acc)
        refine ⟨acc', ?_⟩
        rw [processRow, hpn]
        exact hacc'

theorem runRows_untouched {input : Input} :
    ∀ (n k : Nat) (s : Store), input.length - 1 - k = n →
    WellStructured input s → k ≤ input.length - 1 →
    ∀ (s' : Store) (acc acc' : Option Nat),
    runRows (input.length - 1) (input.drop k) k s acc = .ok (s', acc') →
    ∀ j, (∀ t, k + 1 ≤ t → t < input.length → j ∉ row input t) →
      getNode s' j = getNode s j := by
  intro n
  induction n with
  | zero =>
    intro k s hn hws hk s' acc acc' hrun j _
    have hkL : k = input.length - 1 := by omega
    subst hkL
    have hlen1 : 1 ≤ input.length := by
      cases hi : input with
      | nil => exact absurd hi hws.1
      | cons a l => simp [hi]
    have hlen : input.length - 1 < input.length := by omega
    have hdrop : input.drop (input.length - 1) = [row input (input.length - 1)] := by
      rw [List.drop_eq_getElem_cons hlen, List.drop_eq_nil_of_le (by omega)]
      congr 1
      rw [row, List.getD_eq_getElem?_getD, List.getElem?_eq_getElem hlen]
      rfl
    rw [hdrop, runRows] at hrun
    obtain ⟨acc1, hacc1⟩ :=
      processRow_store_at_last (row input (input.length - 1)) s acc
    rw [hacc1] at hrun
    cases hrun
    rfl
  | succ n ihn =>
    intro k s hn hws hk s' acc acc' hrun j hjout
    have hkL : k < input.length - 1 := by omega
    have hstable : ∀ i ∈ row input k, ∀ e ∈ (getNode s i).edges,
        e.destination ∉ row input k := by
      intro i hi e he hmem
      have hdest : e.destination ∈ row input (k + 1) := hws.2.1 k hkL i hi e he
      have := hws.2.2.1 k (by omega) (k + 1) (by omega) e.destination hmem hdest
      omega
    have hdrop : input.drop k = row input k :: input.drop (k + 1) := by
      rw [List.drop_eq_getElem_cons (show k < input.length by omega)]
      congr 1
      rw [row, List.getD_eq_getElem?_getD,
        List.getElem?_eq_getElem (show k < input.length by omega)]
      rfl
    rw [hdrop, runRows,
      processRow_relax (by omega) (row input k) s acc hstable] at hrun
    change runRows (input.length - 1) (input.drop (k + 1)) (k + 1)
      (applyCands s (rowCands k s (row input k))) acc = Except.ok (s', acc') at hrun
    have hedges := edges_applyCands s (rowCands k s (row input k))
    have hlen1 := length_applyCands s (rowCands k s (row input k))
    have hs1 : getNode (applyCands s (rowCands k s (row input k))) j = getNode s j := by
      apply getNode_applyCands_ne
      intro wd hwd hwj
      rw [rowCands, mem_concatMap] at hwd
      obtain ⟨i, hi, hin⟩ := hwd
      obtain ⟨e, he, hd⟩ := mem_nodeCands_dest hin
      have hdest : e.destination ∈ row input (k + 1) := hws.2.1 k hkL i hi e he
      exact hjout (k + 1) (by omega) (by omega) (by rw [← hwj, hd]; exact hdest)
    rw [← hs1]
    exact ihn (k + 1) _ (by omega) (wellStructured_transfer hlen1 hedges hws)
      (by omega) s' acc acc' hrun j
      fun t ht1 ht2 => hjout t (by omega) ht2

/-! ### The full correctness of the solve -/

theorem min_path_cost_spec {input : Input} {s : Store}
    (hwf : WellFormed input s) (hb : BoundedCosts input s) :
    ∃ s', min_path_cost input s = .ok (specMinCost input s, s') ∧
      (∀ t, 1 ≤ t → t < input.length → ∀ j ∈ row input t,
        (getNode s' j).maybe_min_path = costTo s (row input 0) t j) ∧
      (∀ j, (∀ t, 1 ≤ t → t < input.length → j ∉ row input t) →
        getNode s' j = getNode s j) ∧
      (∀ j, (getNode s' j).edges = (getNode s j).edges) ∧
      s'.length = s.length := by
  obtain ⟨hws, hunset⟩ := hwf
  have hlen1 : 1 ≤ input.length := by
    cases hi : input with
    | nil => exact absurd hi hws.1
    | cons a l => simp [hi]
  by_cases hone : input.length ≤ 1
  · have hlen : input.length = 1 := by omega
    obtain ⟨r, hr⟩ := List.length_eq_one.mp hlen
    subst hr
    have hnone : ∀ i ∈ r, (getNode s i).maybe_min_path = none := by
      intro i hi
      exact hunset 0 (by simp) i hi
    have hspec : specMinCost [r] s = none := by
      rw [specMinCost, allPathCosts, if_pos (by simp)]
      rfl
    refine ⟨s, ?_, ?_, fun j _ => rfl, fun j => rfl, rfl⟩
    · rw [hspec]
      exact min_path_cost_single_row r s hnone
    · intro t ht1 ht2 j hj
      simp at ht2
      omega
  · have hL1 : 1 ≤ input.length - 1 := by omega
    have hstate0 : StateHyp input 0 s := by
      intro t ht1 ht2 j hj
      right
      exact ⟨by omega, hunset t ht2 j hj⟩
    obtain ⟨s', hrun, hfinal, huntouched⟩ :=
      runRows_spec (input.length - 1) 0 s (by omega) hws hb (by omega) hL1 hstate0
    rw [List.drop_zero] at hrun
    have hspec : specMinCost input s
        = listMin ((concatMap (walksFrom s (input.length - 1))
            (row input 0)).map Prod.fst) := by
      rw [specMinCost, allPathCosts, if_neg hone, fullWalks, headD_eq_row_zero]
    obtain ⟨hedges, hlen⟩ := runRows_frame input 0 s none s' _ hrun
    refine ⟨s', ?_, hfinal, huntouched, hedges, hlen⟩
    rw [hspec]
    unfold min_path_cost
    rw [hrun]

/-! ### Claim C1 -/

/-- C1 (amended): for every well-formed input all of whose partial path
sums stay strictly below `usize::MAX`, `min_path_cost` returns exactly the
least total edge weight over all row-0-to-terminal-row paths
(`specMinCost`), returns `None` exactly when no such path exists, and in
particular returns some value `≤ W` for every path of total weight `W`.
Without the bound the claim fails: see the `usize::MAX` counterexample. -/
theorem C1_result_is_least_path_cost (input : Input) (s : Store)
    (hwf : WellFormed input s) (hb : BoundedCosts input s) :
    min_path_cost_result input s = .ok (specMinCost input s) ∧
    (min_path_cost_result input s = .ok none ↔ allPathCosts input s = []) ∧
    (∀ c ∈ allPathCosts input s, ∃ m, m ≤ c ∧
      min_path_cost_result input s = .ok (some m)) := by
  obtain ⟨s', hok, -, -, -, -⟩ := min_path_cost_spec hwf hb
  have hres : min_path_cost_result input s = .ok (specMinCost input s) := by
    rw [min_path_cost_result, hok]
  refine ⟨hres, ?_, ?_⟩
  · rw [hres]
    constructor
    · intro h
      have hn : specMinCost input s = none := by
        injection h
      rw [specMinCost] at hn
      exact (listMin_eq_none_iff _).mp hn
    · intro h
      rw [specMinCost, (listMin_eq_none_iff _).mpr h]
  · intro c hc
    obtain ⟨m, hm, hmle⟩ := le_listMin_of_mem hc
    exact ⟨m, hmle, by rw [hres, specMinCost, hm]⟩

/-- Witness for C1 at the source's own three-row test graph. -/
theorem C1_result_is_least_path_cost_witness :
    WellFormed testInput testStore ∧ BoundedCosts testInput testStore ∧
    min_path_cost_result testInput testStore = .ok (specMinCost testInput testStore) :=
  ⟨by decide, by decide,
    (C1_result_is_least_path_cost testInput testStore (by decide) (by decide)).1⟩

/-- The arena of the C1 counterexample: one row-0 node with a single edge
of weight `usize::MAX` to the only terminal node. -/
def cexStore : Store := [⟨[⟨usizeMAX, 1⟩], none⟩, ⟨[], none⟩]

/-- The rows of the C1 counterexample. -/
def cexInput : Input := [[0], [1]]

/-- C1 counterexample: a well-formed two-row graph whose only path costs
exactly `usize::MAX`.  The path exists and the true minimum is
`usize::MAX`, but the solver returns `None`, because in the terminal fold
`final_min_path.unwrap_or(usize::MAX) > min_path` cannot distinguish the
cost `usize::MAX` from the absent sentinel. -/
theorem C1_usizeMAX_path_reported_none :
    WellFormed cexInput cexStore ∧
    specMinCost cexInput cexStore = some usizeMAX ∧
    min_path_cost_result cexInput cexStore = .ok none :=
  ⟨by decide, rfl, rfl⟩

/-! ### Claim C7 -/

/-- C7: a completed solve changes nothing but `maybe_min_path` fields: the
arena length and every node's edge list (weights and destinations
included) are unchanged — the row structure itself is an immutable input —
and on well-formed input every row-0 node's `min_path` is still absent
after the solve. -/
theorem C7_only_min_path_mutated (input : Input) (s : Store)
    (r : Option Nat) (s' : Store)
    (hok : min_path_cost input s = .ok (r, s')) :
    (s'.length = s.length ∧ ∀ j, (getNode s' j).edges = (getNode s j).edges) ∧
    (WellFormed input s → ∀ j ∈ row input 0,
      (getNode s' j).maybe_min_path = none) := by
  unfold min_path_cost at hok
  cases hrun : runRows (input.length - 1) input 0 s none with
  | error e => rw [hrun] at hok; cases hok
  | ok p =>
    obtain ⟨s1, acc1⟩ := p
    rw [hrun] at hok
    cases hok
    obtain ⟨hedges, hlen⟩ := runRows_frame input 0 s none _ _ hrun
    refine ⟨⟨hlen, hedges⟩, ?_⟩
    intro hwf j hj
    obtain ⟨hws, hunset⟩ := hwf
    have hlen1 : 1 ≤ input.length := by
      cases hi : input with
      | nil => exact absurd hi hws.1
      | cons a l => simp [hi]
    have hrun0 : runRows (input.length - 1) (input.drop 0) 0 s none
        = .ok (s', r) := by
      rw [List.drop_zero]
      exact hrun
    have huj : getNode s' j = getNode s j := by
      apply runRows_untouched (input.length - 1 - 0) 0 s rfl hws (by omega)
        s' none r hrun0 j
      intro t ht1 ht2 hmem
      have := hws.2.2.1 0 (by omega) t ht2 j hj hmem
      omega
    rw [huj]
    exact hunset 0 (by omega) j hj

/-- The arena of the test graph after one completed solve. -/
def testStoreSolved : Store :=
  [⟨[⟨2, 2⟩, ⟨3, 3⟩], none⟩,
   ⟨[⟨0, 2⟩, ⟨1, 3⟩], none⟩,
   ⟨[⟨6, 4⟩], some 0⟩,
   ⟨[⟨4, 4⟩, ⟨5, 5⟩], some 1⟩,
   ⟨[], some 5⟩,
   ⟨[], some 6⟩]

/-- Witness for C7 at the test graph. -/
theorem C7_only_min_path_mutated_witness :
    (testStoreSolved.length = testStore.length ∧
      ∀ j, (getNode testStoreSolved j).edges = (getNode testStore j).edges) ∧
    (WellFormed testInput testStore → ∀ j ∈ row testInput 0,
      (getNode testStoreSolved j).maybe_min_path = none) :=
  C7_only_min_path_mutated testInput testStore (some 5) testStoreSolved rfl

/-! ### Reachability propagates independently of wrapping

Whether a node's `min_path` is `Some` depends only on which nodes are
reachable from row 0, not on the numeric values, so none of the lemmas in
this section carry a `usize::MAX` bound. -/

theorem minPathLEb_some {a b : Option Nat}
    (h : minPathLEb a b = true) (hb : b ≠ none) : a ≠ none := by
  cases a with
  | some _ => simp
  | none =>
    cases b with
    | none => exact absurd rfl hb
    | some m => simp [minPathLEb] at h

theorem processRow_reaches {input : Input} {s : Store} {k : Nat} {acc : Option Nat}
    (hws : WellStructured input s) (hk : k < input.length - 1)
    {s' : Store} {acc' : Option Nat}
    (hpr : processRow k (input.length - 1) (row input k) s acc = .ok (s', acc'))
    {i : Nat} (hi : i ∈ row input k)
    (hsome : k = 0 ∨ (getNode s i).maybe_min_path ≠ none)
    {e : Edge} (he : e ∈ (getNode s i).edges) :
    (getNode s' e.destination).maybe_min_path ≠ none := by
  have hstable : ∀ i' ∈ row input k, ∀ e' ∈ (getNode s i').edges,
      e'.destination ∉ row input k := by
    intro i' hi' e' he' hmem
    have hdest : e'.destination ∈ row input (k + 1) := hws.2.1 k hk i' hi' e' he'
    have := hws.2.2.1 k (by omega) (k + 1) (by omega) e'.destination hmem hdest
    omega
  rw [processRow_relax (by omega) _ s acc hstable] at hpr
  injection hpr with hpr1
  obtain ⟨hps, -⟩ := Prod.mk.injEq .. ▸ hpr1
  have hwsome : ∃ w, weightToDest k (getNode s i) e = some w := by
    rcases hsome with hk0 | hsm
    · refine ⟨e.weight, ?_⟩
      unfold weightToDest
      rw [if_pos hk0]
    · cases hm : (getNode s i).maybe_min_path with
      | none => exact absurd hm hsm
      | some m =>
        unfold weightToDest
        by_cases hk0 : k = 0
        · rw [if_pos hk0]
          exact ⟨e.weight, rfl⟩
        · rw [if_neg hk0, hm]
          exact ⟨(e.weight + m) % U, rfl⟩
  obtain ⟨w, hw⟩ := hwsome
  have hmem : w ∈ (rowCands k s (row input k)).filterMap
      fun wd => if wd.2 = e.destination then some wd.1 else none := by
    rw [mem_filterMap_toj, rowCands, mem_concatMap]
    exact ⟨i, hi, mem_nodeCands_iff.mpr ⟨e, he, rfl, hw⟩⟩
  obtain ⟨m, hlm, -⟩ := le_listMin_of_mem hmem
  have hrange : ∀ wd ∈ rowCands k s (row input k), wd.2 < s.length := by
    intro wd hwd
    rw [rowCands, mem_concatMap] at hwd
    obtain ⟨i', hi', hin⟩ := hwd
    obtain ⟨e', he', hd⟩ := mem_nodeCands_dest hin
    have hdest : e'.destination ∈ row input (k + 1) := hws.2.1 k hk i' hi' e' he'
    rw [hd]
    exact hws.2.2.2 (k + 1) (by omega) e'.destination hdest
  rw [← hps, minp_applyCands hrange e.destination, hlm]
  cases (getNode s e.destination).maybe_min_path <;> simp [optMin]

theorem take_run_reaches {input : Input} {s : Store} (hwf : WellFormed input s) :
    ∀ (k : Nat), k ≤ input.length - 1 →
    ∀ (sr : Store) (accr : Option Nat),
    runRows (input.length - 1) (input.take k) 0 s none = .ok (sr, accr) →
    ∀ t, 1 ≤ t → t ≤ k → ∀ i0 ∈ row input 0, ∀ cw ∈ walksFrom s t i0,
      (getNode sr cw.2).maybe_min_path ≠ none := by
  intro k
  induction k with
  | zero =>
    intro _ sr accr _ t ht1 ht2 _ _ _ _
    omega
  | succ k ih =>
    intro hk sr accr hmid t ht1 ht2 i0 hi0 cw hcw
    have hklen : k < input.length := by omega
    have htake : input.take (k + 1) = input.take k ++ [row input k] := by
      rw [List.take_succ, List.getElem?_eq_getElem hklen]
      congr 1
      rw [row, List.getD_eq_getElem?_getD, List.getElem?_eq_getElem hklen]
      rfl
    rw [htake, @runRows_append (input.length - 1) (input.take k) [row input k] 0 s none]
      at hmid
    cases hprev : runRows (input.length - 1) (input.take k) 0 s none with
    | error e =>
      rw [hprev] at hmid
      cases hmid
    | ok p =>
      obtain ⟨sk, acck⟩ := p
      rw [hprev] at hmid
      change runRows (input.length - 1) [row input k]
        (0 + (input.take k).length) sk acck = Except.ok (sr, accr) at hmid
      have htklen : (input.take k).length = k := by
        rw [List.length_take]
        omega
      rw [htklen, Nat.zero_add, runRows] at hmid
      cases hpr : processRow k (input.length - 1) (row input k) sk acck with
      | error e =>
        rw [hpr] at hmid
        cases hmid
      | ok q =>
        obtain ⟨spr, apr⟩ := q
        rw [hpr] at hmid
        change Except.ok (spr, apr) = Except.ok (sr, accr) at hmid
        cases hmid
        obtain ⟨hedges, hlen⟩ := runRows_frame (input.take k) 0 s none sk acck hprev
        have hwsk := wellStructured_transfer hlen hedges hwf.1
        by_cases htk : t ≤ k
        · have hold := ih (by omega) sk acck hprev t ht1 htk i0 hi0 cw hcw
          have hmono := processRow_mono (row input k) sk acck _ _ hpr cw.2
          exact minPathLEb_some hmono hold
        · have htk1 : t = k + 1 := by omega
          subst htk1
          obtain ⟨cw', hcw', e, he, rfl⟩ := mem_walksFrom_succ.mp hcw
          have hend : cw'.2 ∈ row input k :=
            walksFrom_endpoint hwf.1 k hklen i0 hi0 cw' hcw'
          have hsome : k = 0 ∨ (getNode sk cw'.2).maybe_min_path ≠ none := by
            by_cases hk0 : k = 0
            · exact Or.inl hk0
            · exact Or.inr (ih (by omega) sk acck hprev k (by omega) (le_refl k)
                i0 hi0 cw' hcw')
          have he' : e ∈ (getNode sk cw'.2).edges := by
            rw [hedges]
            exact he
          exact processRow_reaches hwsk (by omega) hpr hend hsome he'

/-! ### A fully relaxed arena is a fixed point of the sweep -/

theorem relaxEdge_noop {s : Store} {w dest d : Nat}
    (hd : (getNode s dest).maybe_min_path = some d) (hle : d ≤ w) :
    relaxEdge s w dest = s := by
  unfold relaxEdge
  rw [hd]
  show (if w < d then setMinPath s dest w else s) = s
  rw [if_neg (by omega)]

theorem applyCands_id {s : Store} :
    ∀ (l : List (Nat × Nat)),
    (∀ wd ∈ l, ∃ d, (getNode s wd.2).maybe_min_path = some d ∧ d ≤ wd.1) →
    applyCands s l = s := by
  intro l
  induction l with
  | nil => intro _; rfl
  | cons wd l ih =>
    intro h
    obtain ⟨d, hd, hle⟩ := h wd (by simp)
    rw [applyCands, relaxEdge_noop hd hle]
    exact ih fun wd' hwd' => h wd' (by simp [hwd'])

theorem runRows_relaxed {input : Input} :
    ∀ (n k : Nat) (s : Store), input.length - 1 - k = n →
    WellStructured input s → k ≤ input.length - 1 →
    ∀ (s' : Store) (acc acc' : Option Nat),
    runRows (input.length - 1) (input.drop k) k s acc = .ok (s', acc') →
    ∀ t, k ≤ t → t < input.length - 1 → ∀ i ∈ row input t,
      ∀ wd ∈ nodeCands t (getNode s' i),
      ∃ d, (getNode s' wd.2).maybe_min_path = some d ∧ d ≤ wd.1 := by
  intro n
  induction n with
  | zero =>
    intro k s hn hws hk s' acc acc' hrun t htk htL i hi wd hwd
    omega
  | succ n ihn =>
    intro k s hn hws hk s' acc acc' hrun t htk htL i hi wd hwd
    have hkL : k < input.length - 1 := by omega
    have hstable : ∀ i' ∈ row input k, ∀ e' ∈ (getNode s i').edges,
        e'.destination ∉ row input k := by
      intro i' hi' e' he' hmem
      have hdest : e'.destination ∈ row input (k + 1) := hws.2.1 k hkL i' hi' e' he'
      have := hws.2.2.1 k (by omega) (k + 1) (by omega) e'.destination hmem hdest
      omega
    have hdrop : input.drop k = row input k :: input.drop (k + 1) := by
      rw [List.drop_eq_getElem_cons (show k < input.length by omega)]
      congr 1
      rw [row, List.getD_eq_getElem?_getD,
        List.getElem?_eq_getElem (show k < input.length by omega)]
      rfl
    rw [hdrop, runRows,
      processRow_relax (by omega) (row input k) s acc hstable] at hrun
    change runRows (input.length - 1) (input.drop (k + 1)) (k + 1)
      (applyCands s (rowCands k s (row input k))) acc = Except.ok (s', acc') at hrun
    have hedges := edges_applyCands s (rowCands k s (row input k))
    have hlen1 := length_applyCands s (rowCands k s (row input k))
    have hws1 := wellStructured_transfer hlen1 hedges hws
    by_cases htk1 : k + 1 ≤ t
    · exact ihn (k + 1) _ (by omega) hws1 (by omega) s' acc acc' hrun
        t htk1 htL i hi wd hwd
    · have htk0 : t = k := by omega
      subst htk0
      have hi_s1 : getNode (applyCands s (rowCands t s (row input t))) i
          = getNode s i := by
        apply getNode_applyCands_ne
        intro wd' hwd' hwj
        rw [rowCands, mem_concatMap] at hwd'
        obtain ⟨i', hi', hin⟩ := hwd'
        obtain ⟨e', he', hd⟩ := mem_nodeCands_dest hin
        have hdest : e'.destination ∈ row input (t + 1) := hws.2.1 t hkL i' hi' e' he'
        have := hws.2.2.1 t (by omega) (t + 1) (by omega) i hi
          (by rw [← hwj, hd]; exact hdest)
        omega
      have hi_sf : getNode s' i = getNode (applyCands s (rowCands t s (row input t))) i := by
        apply runRows_untouched n (t + 1) _ (by omega) hws1 (by omega)
          s' acc acc' hrun i
        intro t' ht1' ht2' hmem
        have := hws.2.2.1 t (by omega) t' ht2' i hi hmem
        omega
      rw [hi_sf, hi_s1] at hwd
      obtain ⟨e, he, hd⟩ := mem_nodeCands_dest hwd
      have hdest : wd.2 ∈ row input (t + 1) := by
        rw [hd]
        exact hws.2.1 t hkL i hi e he
      have hrange : ∀ wd' ∈ rowCands t s (row input t), wd'.2 < s.length := by
        intro wd' hwd'
        rw [rowCands, mem_concatMap] at hwd'
        obtain ⟨i', hi', hin⟩ := hwd'
        obtain ⟨e', he', hd'⟩ := mem_nodeCands_dest hin
        have hdest' : e'.destination ∈ row input (t + 1) := hws.2.1 t hkL i' hi' e' he'
        rw [hd']
        exact hws.2.2.2 (t + 1) (by omega) e'.destination hdest'
      have hcand : wd.1 ∈ (rowCands t s (row input t)).filterMap
          fun wd' => if wd'.2 = wd.2 then some wd'.1 else none := by
        rw [mem_filterMap_toj, rowCands, mem_concatMap]
        exact ⟨i, hi, hwd⟩
      obtain ⟨mc, hmc, hmcle⟩ := le_listMin_of_mem hcand
      have hs1val : ∃ d, (getNode (applyCands s (rowCands t s (row input t)))
          wd.2).maybe_min_path = some d ∧ d ≤ wd.1 := by
        rw [minp_applyCands hrange wd.2, hmc]
        cases hold : (getNode s wd.2).maybe_min_path with
        | none => exact ⟨mc, rfl, by omega⟩
        | some o =>
          refine ⟨min o mc, rfl, ?_⟩
          have := Nat.min_le_right o mc
          omega
      obtain ⟨d, hd1, hd2⟩ := hs1val
      have hj_sf : getNode s' wd.2
          = getNode (applyCands s (rowCands t s (row input t))) wd.2 := by
        apply runRows_untouched n (t + 1) _ (by omega) hws1 (by omega)
          s' acc acc' hrun wd.2
        intro t' ht1' ht2' hmem
        have := hws.2.2.1 (t + 1) (by omega) t' ht2' wd.2 hdest hmem
        omega
      exact ⟨d, by rw [hj_sf]; exact hd1, hd2⟩

theorem runRows_relaxed_fixed {input : Input} {s : Store}
    (hws : WellStructured input s) (hL1 : 1 ≤ input.length - 1)
    (hrel : ∀ t, t < input.length - 1 → ∀ i ∈ row input t,
      ∀ wd ∈ nodeCands t (getNode s i),
      ∃ d, (getNode s wd.2).maybe_min_path = some d ∧ d ≤ wd.1) :
    ∀ (n k : Nat), input.length - 1 - k = n → k ≤ input.length - 1 →
    ∀ acc, runRows (input.length - 1) (input.drop k) k s acc
      = .ok (s, (row input (input.length - 1)).foldl (fun a j =>
          match (getNode s j).maybe_min_path with
          | some m => if a.getD usizeMAX > m then some m else a
          | none => a) acc) := by
  intro n
  induction n with
  | zero =>
    intro k hn hk acc
    have hkL : k = input.length - 1 := by omega
    subst hkL
    have hlen : input.length - 1 < input.length := by omega
    have hdrop : input.drop (input.length - 1) = [row input (input.length - 1)] := by
      rw [List.drop_eq_getElem_cons hlen, List.drop_eq_nil_of_le (by omega)]
      congr 1
      rw [row, List.getD_eq_getElem?_getD, List.getElem?_eq_getElem hlen]
      rfl
    rw [hdrop, runRows,
      processRow_terminal (by omega) (row input (input.length - 1)) s acc]
    rfl
  | succ n ihn =>
    intro k hn hk acc
    have hkL : k < input.length - 1 := by omega
    have hstable : ∀ i' ∈ row input k, ∀ e' ∈ (getNode s i').edges,
        e'.destination ∉ row input k := by
      intro i' hi' e' he' hmem
      have hdest : e'.destination ∈ row input (k + 1) := hws.2.1 k hkL i' hi' e' he'
      have := hws.2.2.1 k (by omega) (k + 1) (by omega) e'.destination hmem hdest
      omega
    have hdrop : input.drop k = row input k :: input.drop (k + 1) := by
      rw [List.drop_eq_getElem_cons (show k < input.length by omega)]
      congr 1
      rw [row, List.getD_eq_getElem?_getD,
        List.getElem?_eq_getElem (show k < input.length by omega)]
      rfl
    rw [hdrop, runRows, processRow_relax (by omega) (row input k) s acc hstable]
    have hid : applyCands s (rowCands k s (row input k)) = s := by
      apply applyCands_id
      intro wd hwd
      rw [rowCands, mem_concatMap] at hwd
      obtain ⟨i, hi, hin⟩ := hwd
      exact hrel k hkL i hi wd hin
    rw [hid]
    show runRows (input.length - 1) (input.drop (k + 1)) (k + 1) s acc = _
    exact ihn (k + 1) (by omega) (by omega) acc

/-! ### Claim C6 -/

/-- C6: for every well-formed input, running the solver a second time on
the already-solved arena, without resetting any `min_path`, returns the
same result and leaves the arena unchanged: one relaxation pass reaches a
fixed point.  No bound on path sums is needed: after the first pass every
destination already stores a value no larger than any candidate its
predecessors can re-emit (even wrapped ones, since the same wrapped sums
recur), and an equal candidate never overwrites. -/
theorem C6_second_solve_is_fixed_point (input : Input) (s : Store)
    (hwf : WellFormed input s)
    (r : Option Nat) (s' : Store)
    (hok : min_path_cost input s = .ok (r, s')) :
    min_path_cost input s' = .ok (r, s') := by
  have hlen1 : 1 ≤ input.length := by
    cases hi : input with
    | nil => exact absurd hi hwf.1.1
    | cons a l => simp [hi]
  by_cases hone : input.length ≤ 1
  · have hlen : input.length = 1 := by omega
    obtain ⟨rw0, hr0⟩ := List.length_eq_one.mp hlen
    subst hr0
    have hnone : ∀ i ∈ rw0, (getNode s i).maybe_min_path = none := by
      intro i hi
      exact hwf.2 0 (by simp) i hi
    have hsingle := min_path_cost_single_row rw0 s hnone
    rw [hok] at hsingle
    injection hsingle with hpair
    obtain ⟨hr, hs⟩ := Prod.mk.injEq .. ▸ hpair
    rw [hr, hs]
    exact min_path_cost_single_row rw0 s hnone
  · have hL1 : 1 ≤ input.length - 1 := by omega
    unfold min_path_cost at hok
    cases hrun : runRows (input.length - 1) input 0 s none with
    | error e => rw [hrun] at hok; cases hok
    | ok p =>
      obtain ⟨sx, accx⟩ := p
      rw [hrun] at hok
      cases hok
      obtain ⟨hedges, hlen⟩ := runRows_frame input 0 s none _ _ hrun
      have hws' := wellStructured_transfer hlen hedges hwf.1
      have hrun0 : runRows (input.length - 1) (input.drop 0) 0 s none
          = .ok (s', r) := by
        rw [List.drop_zero]
        exact hrun
      have hrel : ∀ t, t < input.length - 1 → ∀ i ∈ row input t,
          ∀ wd ∈ nodeCands t (getNode s' i),
          ∃ d, (getNode s' wd.2).maybe_min_path = some d ∧ d ≤ wd.1 := by
        intro t htL i hi wd hwd
        exact runRows_relaxed (input.length - 1 - 0) 0 s rfl hwf.1 (by omega)
          s' none r hrun0 t (by omega) htL i hi wd hwd
      have hsplit := @runRows_append (input.length - 1)
        (input.take (input.length - 1)) (input.drop (input.length - 1)) 0 s none
      rw [List.take_append_drop] at hsplit
      rw [hsplit] at hrun
      cases hprev : runRows (input.length - 1)
          (input.take (input.length - 1)) 0 s none with
      | error e => rw [hprev] at hrun; cases hrun
      | ok q =>
        obtain ⟨sL, accL⟩ := q
        rw [hprev] at hrun
        change runRows (input.length - 1) (input.drop (input.length - 1))
          (0 + (input.take (input.length - 1)).length) sL accL
          = Except.ok (s', r) at hrun
        have htklen : (input.take (input.length - 1)).length = input.length - 1 := by
          rw [List.length_take]
          omega
        rw [htklen, Nat.zero_add] at hrun
        have haccL : accL = none := by
          apply runRows_acc (input.take (input.length - 1)) 0 s none sL accL _ hprev
          intro j hj hjl
          rw [htklen] at hj
          omega
        subst haccL
        have hlenL : input.length - 1 < input.length := by omega
        have hdropL : input.drop (input.length - 1)
            = [row input (input.length - 1)] := by
          rw [List.drop_eq_getElem_cons hlenL, List.drop_eq_nil_of_le (by omega)]
          congr 1
          rw [row, List.getD_eq_getElem?_getD, List.getElem?_eq_getElem hlenL]
          rfl
        rw [hdropL, runRows,
          processRow_terminal (by omega) (row input (input.length - 1)) sL none]
          at hrun
        change Except.ok (sL, (row input (input.length - 1)).foldl (fun a j =>
          match (getNode sL j).maybe_min_path with
          | some m => if a.getD usizeMAX > m then some m else a
          | none => a) none) = Except.ok (s', r) at hrun
        injection hrun with hpair
        obtain ⟨hsl, hfold⟩ := Prod.mk.injEq .. ▸ hpair
        have hsecond := runRows_relaxed_fixed hws' hL1 hrel
          (input.length - 1 - 0) 0 rfl (by omega) none
        rw [List.drop_zero] at hsecond
        unfold min_path_cost
        rw [hsecond]
        show Except.ok ((row input (input.length - 1)).foldl (fun a j =>
          match (getNode s' j).maybe_min_path with
          | some m => if a.getD usizeMAX > m then some m else a
          | none => a) none, s') = Except.ok (r, s')
        rw [← hfold, hsl]

/-- Witness for C6 at the test graph and its solved arena. -/
theorem C6_second_solve_is_fixed_point_witness :
    WellFormed testInput testStore ∧
    min_path_cost testInput testStoreSolved = .ok (some 5, testStoreSolved) :=
  ⟨by decide,
    C6_second_solve_is_fixed_point testInput testStore (by decide)
      (some 5) testStoreSolved rfl⟩

/-! ### Claim C5 -/

/-- C5: a node `i` of a non-zero row whose `min_path` is still absent when
its row comes up (state `sr` after the rows before it) is skipped entirely:
visiting it leaves state and accumulator untouched, its `min_path` is still
absent in the final arena, and no walk out of row 0 ever reaches it — it
lies on no row-0-to-terminal path, so it cannot contribute to the result,
whatever outgoing edges it has.  Reachability is independent of the
numeric values, so no bound on path sums is assumed. -/
theorem C5_unreachable_node_skipped (input : Input) (s : Store)
    (hwf : WellFormed input s)
    (rr : Nat) (hrr1 : 1 ≤ rr) (hrr2 : rr < input.length)
    (i : Nat) (hi : i ∈ row input rr)
    (sr : Store) (accr : Option Nat)
    (hmid : runRows (input.length - 1) (input.take rr) 0 s none = .ok (sr, accr))
    (hnone : (getNode sr i).maybe_min_path = none)
    (r : Option Nat) (s_f : Store)
    (hok : min_path_cost input s = .ok (r, s_f)) :
    processNode sr accr rr (input.length - 1) i = .ok (sr, accr) ∧
    (getNode s_f i).maybe_min_path = none ∧
    (∀ t, t < input.length → ∀ i0 ∈ row input 0,
      ∀ cw ∈ walksFrom s t i0, cw.2 ≠ i) := by
  have ha : processNode sr accr rr (input.length - 1) i = .ok (sr, accr) := by
    unfold processNode
    rw [if_pos ⟨by omega, hnone⟩]
  unfold min_path_cost at hok
  cases hrun : runRows (input.length - 1) input 0 s none with
  | error e => rw [hrun] at hok; cases hok
  | ok p =>
    obtain ⟨sx, accx⟩ := p
    rw [hrun] at hok
    cases hok
    have hsplit := @runRows_append (input.length - 1)
      (input.take rr) (input.drop rr) 0 s none
    rw [List.take_append_drop] at hsplit
    rw [hsplit, hmid] at hrun
    have htklen : (input.take rr).length = rr := by
      rw [List.length_take]
      omega
    change runRows (input.length - 1) (input.drop rr)
      (0 + (input.take rr).length) sr accr = Except.ok (s_f, r) at hrun
    rw [htklen, Nat.zero_add] at hrun
    obtain ⟨hedgesPre, hlenPre⟩ :=
      runRows_frame (input.take rr) 0 s none sr accr hmid
    have hwsr := wellStructured_transfer hlenPre hedgesPre hwf.1
    have hb2 : getNode s_f i = getNode sr i := by
      apply runRows_untouched (input.length - 1 - rr) rr sr rfl hwsr (by omega)
        s_f accr r hrun i
      intro t ht1 ht2 hmem
      have := hwf.1.2.2.1 rr hrr2 t ht2 i hi hmem
      omega
    refine ⟨ha, ?_, ?_⟩
    · rw [hb2]
      exact hnone
    · intro t ht i0 hi0 cw hcw hcw2
      have hend : cw.2 ∈ row input t := walksFrom_endpoint hwf.1 t ht i0 hi0 cw hcw
      rw [hcw2] at hend
      have htrr := hwf.1.2.2.1 t ht rr hrr2 i hend hi
      rw [htrr] at hcw
      have hreach := take_run_reaches hwf rr (by omega) sr accr hmid rr
        hrr1 (le_refl rr) i0 hi0 cw hcw
      rw [hcw2] at hreach
      exact hreach hnone

/-- The arena of the C5 witness graph: node 2 sits in row 1 with an edge to
the terminal row but no incoming edge. -/
def skipStore : Store :=
  [⟨[⟨1, 1⟩], none⟩, ⟨[⟨1, 3⟩], none⟩, ⟨[⟨1, 3⟩], none⟩, ⟨[], none⟩]

/-- Rows of the C5 witness graph. -/
def skipInput : Input := [[0], [1, 2], [3]]

/-- C5 witness arena after row 0 is processed. -/
def skipStoreMid : Store :=
  [⟨[⟨1, 1⟩], none⟩, ⟨[⟨1, 3⟩], some 1⟩, ⟨[⟨1, 3⟩], none⟩, ⟨[], none⟩]

/-- C5 witness arena after the whole solve. -/
def skipStoreFinal : Store :=
  [⟨[⟨1, 1⟩], none⟩, ⟨[⟨1, 3⟩], some 1⟩, ⟨[⟨1, 3⟩], none⟩, ⟨[], some 2⟩]

/-- Witness for C5 at a disconnected middle-row node with an edge into the
terminal row. -/
theorem C5_unreachable_node_skipped_witness :
    WellFormed skipInput skipStore ∧
    (2 : Nat) ∈ row skipInput 1 ∧
    runRows (skipInput.length - 1) (skipInput.take 1) 0 skipStore none
      = .ok (skipStoreMid, none) ∧
    (getNode skipStoreMid 2).maybe_min_path = none ∧
    min_path_cost skipInput skipStore = .ok (some 2, skipStoreFinal) ∧
    (processNode skipStoreMid none 1 (skipInput.length - 1) 2
        = .ok (skipStoreMid, none) ∧
      (getNode skipStoreFinal 2).maybe_min_path = none ∧
      (∀ t, t < skipInput.length → ∀ i0 ∈ row skipInput 0,
        ∀ cw ∈ walksFrom skipStore t i0, cw.2 ≠ 2)) :=
  ⟨by decide, by decide, rfl, rfl, rfl,
    C5_unreachable_node_skipped skipInput skipStore (by decide)
      1 (by omega) (by decide) 2 (by decide) skipStoreMid none rfl rfl
      (some 2) skipStoreFinal rfl⟩

end MinPath
